import Mathlib

/-!
Shallow embedding of the folder-synchronization program in `src/main.py`
(the functions `hash_file`, `files_are_different`, `should_exclude` and
`sync_folders`), together with proofs about the embedded definitions.

Modelling conventions:
* A directory tree is a finite tree of named regular files and named
  subdirectories.  A regular file carries its byte content (a list of
  bytes), its modification time and a readability flag (an unreadable
  file is one for which `open` for reading raises, which is exactly what
  makes `hash_file` fail).  A directory node carries the stat metadata
  (`st_size`, `st_mtime`) that `os.stat` reports for the directory
  itself, which the comparator consults when the replica entry at a file
  path happens to be a directory.
* The MD5 digest is modelled as a collision-free function of the byte
  stream: reading the file in 4096-byte chunks and feeding each chunk to
  the running hash makes the digest a function of the concatenated
  content, so the digest is modelled by the content list itself.
* Filesystem mutation is modelled by state passing: each phase of
  `sync_folders` takes the replica tree and returns the updated tree
  together with the list of log records it emits, in emission order.
* Environmental copy failures (permission denied, locked target) are
  modelled by an oracle `copyOk`; structural failures (writing through a
  path component that is a regular file, or onto a directory) are
  derived from the trees themselves, as is the `NotADirectoryError`
  that `os.makedirs` raises when a path component of the directory to
  create is a regular file - that exception escapes `sync_folders`,
  which the model records in the `raised` field of the pass result.
* Glob patterns are modelled by their denotation: the set of bare file
  names (`fnmatch.fnmatch`) a pattern matches.
-/

/-- Stat metadata (`st_size`, `st_mtime`) of a directory node. -/
structure DirMeta where
  size : Nat
  mtime : Nat
deriving DecidableEq, Repr

/-- A regular file: content bytes, modification time, and whether opening
it for reading succeeds. -/
structure FileData where
  content : List Nat
  mtime : Nat
  readable : Bool
deriving DecidableEq, Repr

mutual

/-- A directory tree: the node's stat metadata, its regular files and its
subdirectories, each listed in the order `os.walk` enumerates them. -/
inductive FSTree where
  | node : DirMeta → List (String × FileData) → DirList → FSTree

/-- The subdirectory listing of a directory node: a sequence of named
subtrees. -/
inductive DirList where
  | nil : DirList
  | cons : String → FSTree → DirList → DirList

end

/-- Stat metadata of the root of a tree. -/
def FSTree.meta : FSTree → DirMeta
  | .node m _ _ => m

/-- Regular files of the root of a tree. -/
def FSTree.files : FSTree → List (String × FileData)
  | .node _ fs _ => fs

/-- Subdirectories of the root of a tree. -/
def FSTree.dirs : FSTree → DirList
  | .node _ _ ds => ds

/-- Name-keyed lookup in an association list (first match wins, as a
directory listing has at most one entry per name). -/
def lookupN {β : Type} (n : String) : List (String × β) → Option β
  | [] => none
  | (m, b) :: rest => if m = n then some b else lookupN n rest

/-- Name-keyed lookup in a subdirectory listing. -/
def DirList.lookupD (n : String) : DirList → Option FSTree
  | .nil => none
  | .cons m t rest => if m = n then some t else rest.lookupD n

/-- The subdirectory listing as a plain association list. -/
def DirList.toList : DirList → List (String × FSTree)
  | .nil => []
  | .cons n t rest => (n, t) :: rest.toList

/-- A freshly created, empty directory (`os.makedirs`). -/
def emptyDir : FSTree := .node ⟨0, 0⟩ [] .nil

/-- What a relative path resolves to inside a tree. -/
inductive FindResult where
  | missing : FindResult
  | file : FileData → FindResult
  | dir : FSTree → FindResult

/-- Resolve a relative path in a tree: the empty path is the tree's root
directory; a non-empty path descends through subdirectories and may end
at a file.  A path strictly below a regular file resolves to nothing. -/
def FSTree.find : FSTree → List String → FindResult
  | t, [] => .dir t
  | t, n :: rest =>
    match t.dirs.lookupD n with
    | some t' => t'.find rest
    | none =>
      match rest with
      | [] =>
        match lookupN n t.files with
        | some fd => .file fd
        | none => .missing
      | _ :: _ => .missing

/-- Which root an absolute path in a log message lies under. -/
inductive Side where
  | source
  | replica
deriving DecidableEq, Repr

/-- One log record emitted by the program (the `logging.info` and
`logging.error` calls of `main.py`), identified by its call site and the
paths interpolated into the message.  Paths are relative to the
respective root. -/
inductive LogEvent where
  | wouldCreateReplicaFolder : LogEvent
  | createdReplicaFolder : LogEvent
  | createdDirectory : List String → LogEvent
  | excludingFile : String → LogEvent
  | copied : List String → List String → LogEvent
  | wouldCopy : List String → List String → LogEvent
  | copyFailed : List String → List String → LogEvent
  | hashError : Side → List String → LogEvent
  | removedFile : List String → LogEvent
  | wouldRemoveFile : List String → LogEvent
  | removedDirectory : List String → LogEvent
  | wouldRemoveDirectory : List String → LogEvent
deriving DecidableEq, Repr

/-- A glob pattern, modelled by its denotation: the set of bare file
names that `fnmatch.fnmatch` matches against it. -/
abbrev GlobPattern := String → Bool

/-- Line 55-56 of `main.py`: a file name is excluded when any of the
patterns matches it. -/
def should_exclude (file_name : String) (exclude_patterns : List GlobPattern) : Bool :=
  exclude_patterns.any (fun pattern => pattern file_name)

/-- The streamed MD5 digest of lines 33-39: the file is read in
4096-byte chunks and each chunk is fed to the running hash, so the
digest is a function of the concatenated content; it is modelled as a
collision-free digest, i.e. by the content itself. -/
def md5Digest (content : List Nat) : List Nat := content

/-- What `os.stat` and `open` see at a path handed to the comparator: a
regular file with its data, or a directory with its stat metadata
(opening a directory for reading raises `IsADirectoryError`, so hashing
it fails). -/
inductive StatEntry where
  | file : FileData → StatEntry
  | dir : DirMeta → StatEntry
deriving DecidableEq, Repr

/-- `st_size` of a stat entry (for a regular file, the byte count). -/
def StatEntry.size : StatEntry → Nat
  | .file fd => fd.content.length
  | .dir m => m.size

/-- `st_mtime` of a stat entry. -/
def StatEntry.mtime : StatEntry → Nat
  | .file fd => fd.mtime
  | .dir m => m.mtime

/-- Lines 33-42 of `main.py`: compute the MD5 digest of the entry at a
path.  On any failure to read (unreadable file, or the path is a
directory) the exception is caught, one error record naming the path is
logged, and `None` is returned. -/
def hash_file (side : Side) (path : List String) (e : StatEntry) :
    Option (List Nat) × List LogEvent :=
  match e with
  | .file fd =>
    if fd.readable then (some (md5Digest fd.content), [])
    else (none, [LogEvent.hashError side path])
  | .dir _ => (none, [LogEvent.hashError side path])

/-- Lines 47-52 of `main.py`: the content comparator.  Returns whether
the two entries are considered different, together with the log records
emitted while deciding (hash failures).  Size and modification time are
compared first; only if the sizes are equal and the source is not
strictly newer are both digests computed and compared. -/
def files_are_different (sp rp : List String) (s r : StatEntry) :
    Bool × List LogEvent :=
  if s.size ≠ r.size then (true, [])
  else if r.mtime < s.mtime then (true, [])
  else
    let hs := hash_file .source sp s
    let hr := hash_file .replica rp r
    (decide (hs.1 ≠ hr.1), hs.2 ++ hr.2)

/-- One pending copy work item: the source and replica paths of a file
that must be copied (relative to the respective roots). -/
structure SyncPair where
  sourcePath : List String
  replicaPath : List String
deriving DecidableEq, Repr

/-- The state of the replica filesystem at one relative path during the
source walk: an existing directory (with its whole subtree), an existing
regular file, an absent path whose ancestors are all directories, or an
absent path one of whose ancestors is a regular file (`os.makedirs`
raises `NotADirectoryError` there). -/
inductive RepLoc where
  | dir : FSTree → RepLoc
  | file : FileData → RepLoc
  | missing : RepLoc
  | blocked : RepLoc

/-- Whether a replica state is the absent-with-directory-ancestors one. -/
def RepLoc.isMissing : RepLoc → Bool
  | .missing => true
  | _ => false

/-- Whether a replica state is the absent-below-a-file one. -/
def RepLoc.isBlocked : RepLoc → Bool
  | .blocked => true
  | _ => false

/-- The replica state one level below the given state, at child name
`n`. -/
def childLoc (loc : RepLoc) (n : String) : RepLoc :=
  match loc with
  | .dir t =>
    match t.dirs.lookupD n with
    | some t' => .dir t'
    | none =>
      match lookupN n t.files with
      | some fd => .file fd
      | none => .missing
  | .file _ => .blocked
  | .missing => .missing
  | .blocked => .blocked

/-- What `replica_file.exists()` and the subsequent stat calls see for a
file name directly below the current replica state: `none` when the path
does not exist. -/
def checkEntry (loc : RepLoc) (n : String) : Option StatEntry :=
  match loc with
  | .dir t =>
    match t.dirs.lookupD n with
    | some t' => some (.dir t'.meta)
    | none =>
      match lookupN n t.files with
      | some fd => some (.file fd)
      | none => none
  | _ => none

/-- Result of the scan phase at one position of the walk: the replica
state at that position after any directory creation, the pending pairs,
the log records, and whether `os.makedirs` raised (aborting the pass). -/
structure ScanOut where
  loc : RepLoc
  pairs : List SyncPair
  log : List LogEvent
  aborted : Bool

/-- Replace the first binding of `n` (or append one) in an association
list. -/
def upsert {β : Type} (n : String) (b : β) : List (String × β) → List (String × β)
  | [] => [(n, b)]
  | (m, c) :: rest => if m = n then (n, b) :: rest else (m, c) :: upsert n b rest

/-- Replace the first binding of `n` (or append one) in a subdirectory
listing. -/
def DirList.upsertD (n : String) (t : FSTree) : DirList → DirList
  | .nil => .cons n t .nil
  | .cons m u rest => if m = n then .cons n t rest else .cons m u (rest.upsertD n t)

/-- Record the post-scan replica state of child `n` in the state of its
parent. -/
def applyChild (loc : RepLoc) (n : String) (cl : RepLoc) : RepLoc :=
  match loc, cl with
  | .dir t, .dir t' => .dir (.node t.meta t.files (t.dirs.upsertD n t'))
  | l, _ => l

/-- Lines 91-101 of `main.py`: classify the files of one source
directory, in listing order.  An excluded name is logged and skipped;
otherwise a pair is appended when the replica file is absent or the
comparator reports a difference. -/
def scanFiles (excl : List GlobPattern) (p : List String) (loc : RepLoc) :
    List (String × FileData) → List SyncPair × List LogEvent
  | [] => ([], [])
  | (n, fd) :: rest =>
    let r := scanFiles excl p loc rest
    if should_exclude n excl then (r.1, LogEvent.excludingFile n :: r.2)
    else
      match checkEntry loc n with
      | none => (⟨p ++ [n], p ++ [n]⟩ :: r.1, r.2)
      | some e =>
        let d := files_are_different (p ++ [n]) (p ++ [n]) (.file fd) e
        if d.1 then (⟨p ++ [n], p ++ [n]⟩ :: r.1, d.2 ++ r.2)
        else (r.1, d.2 ++ r.2)

mutual

/-- Lines 83-101 of `main.py`: one `os.walk` visit of a source directory
at relative path `p`.  Unless `dry`, an absent replica directory is
created (and logged); `os.makedirs` raises when an ancestor of the path
is a regular file, which aborts the whole pass before anything of this
directory is processed.  Then the directory's files are classified and
its subdirectories are visited depth-first, in order. -/
def scanTree (excl : List GlobPattern) (dry : Bool) :
    List String → FSTree → RepLoc → ScanOut
  | p, .node _ fs ds, loc =>
    if !dry && loc.isBlocked then ⟨.blocked, [], [], true⟩
    else
      let created := !dry && loc.isMissing
      let loc' := if created then .dir emptyDir else loc
      let mkLog := if created then [LogEvent.createdDirectory p] else ([] : List LogEvent)
      let f := scanFiles excl p loc' fs
      let d := scanDirs excl dry p ds loc'
      ⟨d.loc, f.1 ++ d.pairs, mkLog ++ f.2 ++ d.log, d.aborted⟩

/-- Visit the subdirectories of one source directory in order,
threading the replica state of the parent; an abort stops the walk. -/
def scanDirs (excl : List GlobPattern) (dry : Bool) :
    List String → DirList → RepLoc → ScanOut
  | _, .nil, loc => ⟨loc, [], [], false⟩
  | p, .cons n t rest, loc =>
    let c := scanTree excl dry (p ++ [n]) t (childLoc loc n)
    if c.aborted then ⟨applyChild loc n c.loc, c.pairs, c.log, true⟩
    else
      let r := scanDirs excl dry p rest (applyChild loc n c.loc)
      ⟨r.loc, c.pairs ++ r.pairs, c.log ++ r.log, r.aborted⟩

end

/-- Write a file at a non-empty relative path of a tree, overwriting any
regular file already there.  Fails (`none`) when a proper ancestor of
the path is not an existing directory, or when the path itself is a
directory (opening it for writing raises). -/
def setFileAt : FSTree → List String → FileData → Option FSTree
  | _, [], _ => none
  | .node m fs ds, [n], fd =>
    match ds.lookupD n with
    | some _ => none
    | none => some (.node m (upsert n fd fs) ds)
  | .node m fs ds, n :: rest, fd =>
    match ds.lookupD n with
    | some sub =>
      match setFileAt sub rest fd with
      | some sub' => some (.node m fs (ds.upsertD n sub'))
      | none => none
    | none => none

/-- Lines 71-79 of `main.py`: copy one pending pair.  Under `dry` only
the intent is logged.  Otherwise `shutil.copy2` reads the source file
and writes its content and metadata to the target, with the `shutil`
rule that a target which is an existing directory receives the file
under the source's base name inside it; any failure (oracle `copyOk`
false, unreadable source, structurally impossible write) is caught and
logged with both paths of the pair. -/
def copy_or_update_file (dry : Bool) (srcT : Option FSTree) (copyOk : SyncPair → Bool)
    (rep : Option FSTree) (pr : SyncPair) : Option FSTree × List LogEvent :=
  if dry then (rep, [LogEvent.wouldCopy pr.sourcePath pr.replicaPath])
  else
    match rep, srcT with
    | some r, some st =>
      match st.find pr.sourcePath with
      | .file sfd =>
        if copyOk pr && sfd.readable then
          let target :=
            match r.find pr.replicaPath with
            | .dir _ => pr.replicaPath ++ [pr.sourcePath.getLastD ""]
            | _ => pr.replicaPath
          match setFileAt r target ⟨sfd.content, sfd.mtime, true⟩ with
          | some r' => (some r', [LogEvent.copied pr.sourcePath pr.replicaPath])
          | none => (some r, [LogEvent.copyFailed pr.sourcePath pr.replicaPath])
        else (some r, [LogEvent.copyFailed pr.sourcePath pr.replicaPath])
      | _ => (some r, [LogEvent.copyFailed pr.sourcePath pr.replicaPath])
    | _, _ => (rep, [LogEvent.copyFailed pr.sourcePath pr.replicaPath])

/-- Lines 103-106 of `main.py`: attempt every pending pair.  Each copy
is independent: a failure is logged and the remaining pairs are still
attempted. -/
def applyPairs (dry : Bool) (srcT : Option FSTree) (copyOk : SyncPair → Bool) :
    Option FSTree → List SyncPair → Option FSTree × List LogEvent
  | rep, [] => (rep, [])
  | rep, pr :: rest =>
    let c := copy_or_update_file dry srcT copyOk rep pr
    let r := applyPairs dry srcT copyOk c.1 rest
    (r.1, c.2 ++ r.2)

/-- Whether the source tree still contains an entry (of any kind) at a
relative path - the `source_file.exists()` / `source_dir.exists()`
checks of the pruning loop. -/
def existsInSrc (src : Option FSTree) (p : List String) : Bool :=
  match src with
  | none => false
  | some t =>
    match t.find p with
    | .missing => false
    | _ => true

mutual

/-- Lines 109-131 of `main.py`: one `os.walk` visit of a replica
directory at relative path `p`.  Files with no source counterpart are
removed (or their removal logged under `dry`); subdirectories with no
source counterpart are removed recursively in one step (`rmtree`), or
logged and, under `dry`, still descended into by the walk since they
still exist. -/
def pruneTree (dry : Bool) (srcEx : List String → Bool) :
    List String → FSTree → FSTree × List LogEvent
  | p, .node m fs ds =>
    let keptFiles := if dry then fs else fs.filter (fun e => srcEx (p ++ [e.1]))
    let fLog := (fs.filter (fun e => !srcEx (p ++ [e.1]))).map
      (fun e => if dry then LogEvent.wouldRemoveFile (p ++ [e.1])
                else LogEvent.removedFile (p ++ [e.1]))
    let d := pruneDirs dry srcEx p ds
    (.node m keptFiles d.1, fLog ++ d.2.1 ++ d.2.2)

/-- Process the subdirectory entries of one replica directory in order:
the kept (possibly pruned) entries, the removal log records of this
level, and the log records of the recursive visits. -/
def pruneDirs (dry : Bool) (srcEx : List String → Bool) :
    List String → DirList → DirList × (List LogEvent × List LogEvent)
  | _, .nil => (.nil, ([], []))
  | p, .cons n t rest =>
    let r := pruneDirs dry srcEx p rest
    if srcEx (p ++ [n]) then
      let c := pruneTree dry srcEx (p ++ [n]) t
      (.cons n c.1 r.1, (r.2.1, c.2 ++ r.2.2))
    else
      if dry then
        let c := pruneTree dry srcEx (p ++ [n]) t
        (.cons n t r.1,
          (LogEvent.wouldRemoveDirectory (p ++ [n]) :: r.2.1, c.2 ++ r.2.2))
      else (r.1, (LogEvent.removedDirectory (p ++ [n]) :: r.2.1, r.2.2))

end

/-- The observable outcome of one `sync_folders` call: the replica tree
afterwards (`none` when the replica folder still does not exist), the
pending pair list that was built, the log records in order, and whether
an exception escaped the call. -/
structure PassResult where
  replica : Option FSTree
  pairs : List SyncPair
  log : List LogEvent
  raised : Bool

/-- The replica tree denoted by a root replica state. -/
def locToOpt : RepLoc → Option FSTree
  | .dir t => some t
  | _ => none

/-- Lines 60-131 of `main.py`: one synchronization pass over a source
root and a replica root (either of which may not exist), with the given
dry-run flag, exclusion patterns and copy-failure oracle.  Ensures the
replica root exists (unless dry), walks the source creating directories
and collecting pending pairs (`os.walk` of an absent source yields
nothing), attempts every pending copy, then prunes replica entries that
have no source counterpart.  An exception raised by `os.makedirs`
escapes the call, skipping the copy and prune phases. -/
def sync_folders (src : Option FSTree) (rep : Option FSTree) (dry_run : Bool)
    (exclude_patterns : List GlobPattern) (copyOk : SyncPair → Bool) : PassResult :=
  let ensure : RepLoc × List LogEvent :=
    match rep with
    | none =>
      if dry_run then (.missing, [LogEvent.wouldCreateReplicaFolder])
      else (.dir emptyDir, [LogEvent.createdReplicaFolder])
    | some t => (.dir t, [])
  let s :=
    match src with
    | none => ScanOut.mk ensure.1 [] [] false
    | some st => scanTree exclude_patterns dry_run [] st ensure.1
  if s.aborted then
    ⟨locToOpt s.loc, s.pairs, ensure.2 ++ s.log, true⟩
  else
    let a := applyPairs dry_run src copyOk (locToOpt s.loc) s.pairs
    let pr : Option FSTree × List LogEvent :=
      match a.1 with
      | none => (none, [])
      | some t =>
        let c := pruneTree dry_run (existsInSrc src) [] t
        (some c.1, c.2)
    ⟨pr.1, s.pairs, ensure.2 ++ s.log ++ a.2 ++ pr.2, false⟩

/-! Helper notions used by the proofs. -/

/-- The resolution function a replica state induces on relative paths. -/
def locFind : RepLoc → List String → FindResult
  | .dir t, q => t.find q
  | .file fd, [] => .file fd
  | .file _, _ :: _ => .missing
  | .missing, _ => .missing
  | .blocked, _ => .missing

/-- The stat view of a resolution result (`exists()` plus `os.stat`). -/
def toStat : FindResult → Option StatEntry
  | .missing => none
  | .file fd => some (.file fd)
  | .dir t => some (.dir t.meta)

/-- The digest value `hash_file` returns, independently of the logged
path. -/
def hashB : StatEntry → Option (List Nat)
  | .file fd => if fd.readable then some (md5Digest fd.content) else none
  | .dir _ => none

/-- The comparator's verdict, independently of the logged paths. -/
def differsB (s r : StatEntry) : Bool :=
  if s.size ≠ r.size then true
  else if r.mtime < s.mtime then true
  else decide (hashB s ≠ hashB r)

theorem hash_file_fst (side : Side) (path : List String) (e : StatEntry) :
    (hash_file side path e).1 = hashB e := by
  cases e with
  | file fd => by_cases h : fd.readable <;> simp [hash_file, hashB, h]
  | dir m => simp [hash_file, hashB]

theorem files_are_different_fst (sp rp : List String) (s r : StatEntry) :
    (files_are_different sp rp s r).1 = differsB s r := by
  by_cases h1 : s.size ≠ r.size
  · simp [files_are_different, differsB, h1]
  · by_cases h2 : r.mtime < s.mtime <;>
      simp [files_are_different, differsB, h1, h2, hash_file_fst]

theorem lookupN_mem {β : Type} (n : String) (fs : List (String × β)) (b : β)
    (h : lookupN n fs = some b) : (n, b) ∈ fs := by
  induction fs with
  | nil => simp [lookupN] at h
  | cons e rest ih =>
    obtain ⟨m, c⟩ := e
    by_cases he : m = n
    · subst he
      have hc : c = b := by simpa [lookupN] using h
      subst hc
      exact List.mem_cons_self _ _
    · exact List.mem_cons_of_mem _ (ih (by simpa [lookupN, he] using h))

theorem FSTree.eta : ∀ (t : FSTree), FSTree.node t.meta t.files t.dirs = t
  | .node _ _ _ => rfl

theorem upsertD_lookup_self : ∀ (ds : DirList) (n : String) (t : FSTree),
    ds.lookupD n = some t → ds.upsertD n t = ds
  | .nil, n, t => by intro h; simp [DirList.lookupD] at h
  | .cons m u rest, n, t => by
    intro h
    by_cases hm : m = n
    · subst hm
      have hu : u = t := by simpa [DirList.lookupD] using h
      subst hu
      simp [DirList.upsertD]
    · have h' : rest.lookupD n = some t := by simpa [DirList.lookupD, hm] using h
      simp [DirList.upsertD, hm, upsertD_lookup_self rest n t h']

theorem lookupD_upsertD_self : ∀ (ds : DirList) (n : String) (t : FSTree),
    (ds.upsertD n t).lookupD n = some t
  | .nil, n, t => by simp [DirList.upsertD, DirList.lookupD]
  | .cons m u rest, n, t => by
    by_cases h : m = n <;>
      simp [DirList.upsertD, DirList.lookupD, h, lookupD_upsertD_self rest n t]

theorem lookupD_upsertD_ne : ∀ (ds : DirList) (n m : String) (t : FSTree), m ≠ n →
    (ds.upsertD n t).lookupD m = ds.lookupD m
  | .nil, n, m, t => by intro h; simp [DirList.upsertD, DirList.lookupD, Ne.symm h]
  | .cons k u rest, n, m, t => by
    intro h
    by_cases hk : k = n
    · subst hk
      simp [DirList.upsertD, DirList.lookupD, Ne.symm h]
    · by_cases hkm : k = m
      · subst hkm
        simp [DirList.upsertD, DirList.lookupD, hk]
      · simp [DirList.upsertD, DirList.lookupD, hk, hkm,
          lookupD_upsertD_ne rest n m t h]

theorem locFind_childLoc (loc : RepLoc) (n : String) (q : List String) :
    locFind (childLoc loc n) q = locFind loc (n :: q) := by
  cases loc with
  | dir t =>
    cases t with
    | node m fs ds =>
      simp only [childLoc, locFind, FSTree.find, FSTree.dirs, FSTree.files]
      cases h : ds.lookupD n with
      | some t' => simp [locFind]
      | none =>
        cases hf : lookupN n fs with
        | some fd => cases q <;> simp [locFind]
        | none => cases q <;> simp [locFind]
  | file fd => cases q <;> simp [childLoc, locFind]
  | missing => simp [childLoc, locFind]
  | blocked => simp [childLoc, locFind]

theorem checkEntry_eq (loc : RepLoc) (n : String) :
    checkEntry loc n = toStat (locFind loc [n]) := by
  cases loc with
  | dir t =>
    cases t with
    | node m fs ds =>
      simp only [checkEntry, locFind, FSTree.find, FSTree.dirs, FSTree.files]
      cases h : ds.lookupD n with
      | some t' => simp [toStat]
      | none => cases hf : lookupN n fs <;> simp [toStat]
  | file fd => simp [checkEntry, locFind, toStat]
  | missing => simp [checkEntry, locFind, toStat]
  | blocked => simp [checkEntry, locFind, toStat]

theorem applyChild_childLoc_self (loc : RepLoc) (n : String) :
    applyChild loc n (childLoc loc n) = loc := by
  cases loc with
  | dir t =>
    cases h : t.dirs.lookupD n with
    | some t' =>
      simp [childLoc, h, applyChild, upsertD_lookup_self _ _ _ h, FSTree.eta]
    | none =>
      cases hf : lookupN n t.files with
      | some fd => simp [childLoc, h, hf, applyChild]
      | none => simp [childLoc, h, hf, applyChild]
  | file fd => simp [childLoc, applyChild]
  | missing => simp [childLoc, applyChild]
  | blocked => simp [childLoc, applyChild]

/-! Event classifiers and the scan decisions expressed against a fixed
replica resolution. -/

/-- Log records that announce an intended copy (dry run). -/
def isWouldCopy : LogEvent → Bool
  | .wouldCopy _ _ => true
  | _ => false

/-- Log records that announce an executed filesystem mutation. -/
def isMutating : LogEvent → Bool
  | .createdReplicaFolder => true
  | .createdDirectory _ => true
  | .copied _ _ => true
  | .removedFile _ => true
  | .removedDirectory _ => true
  | _ => false

/-- Log records announcing an executed or attempted copy or removal. -/
def isCopyOrRemove : LogEvent → Bool
  | .copied _ _ => true
  | .copyFailed _ _ => true
  | .removedFile _ => true
  | .removedDirectory _ => true
  | _ => false

/-- Records the scan phase can emit while classifying files. -/
def isScanFileEvent : LogEvent → Bool
  | .excludingFile _ => true
  | .hashError _ _ => true
  | _ => false

/-- Records the dry prune phase can emit. -/
def isDryPruneEvent : LogEvent → Bool
  | .wouldRemoveFile _ => true
  | .wouldRemoveDirectory _ => true
  | _ => false

/-- The pending pairs produced for one file listing, computed against a
fixed resolution `ρ` of the replica (used to show that the state the
walk threads along does not influence its decisions). -/
def expFiles (excl : List GlobPattern) (p : List String) (ρ : List String → FindResult) :
    List (String × FileData) → List SyncPair
  | [] => []
  | (n, fd) :: rest =>
    let r := expFiles excl p ρ rest
    if should_exclude n excl then r
    else
      match toStat (ρ [n]) with
      | none => ⟨p ++ [n], p ++ [n]⟩ :: r
      | some e => if differsB (.file fd) e then ⟨p ++ [n], p ++ [n]⟩ :: r else r

mutual

/-- The pending pairs the walk of a source tree produces against a fixed
replica resolution. -/
def expPairsT (excl : List GlobPattern) :
    List String → (List String → FindResult) → FSTree → List SyncPair
  | p, ρ, .node _ fs ds => expFiles excl p ρ fs ++ expPairsD excl p ρ ds

/-- The pending pairs the walk of a subdirectory listing produces. -/
def expPairsD (excl : List GlobPattern) :
    List String → (List String → FindResult) → DirList → List SyncPair
  | _, _, .nil => []
  | p, ρ, .cons n t rest =>
    expPairsT excl (p ++ [n]) (fun q => ρ (n :: q)) t ++ expPairsD excl p ρ rest

end

theorem hash_file_log (side : Side) (path : List String) (e' : StatEntry) :
    ∀ e ∈ (hash_file side path e').2, isScanFileEvent e = true := by
  intro e he
  cases e' with
  | file fd =>
    by_cases h : fd.readable
    · simp [hash_file, h] at he
    · simp [hash_file, h] at he
      simp [he, isScanFileEvent]
  | dir m =>
    simp [hash_file] at he
    simp [he, isScanFileEvent]

theorem files_are_different_log (sp rp : List String) (s r : StatEntry) :
    ∀ e ∈ (files_are_different sp rp s r).2, isScanFileEvent e = true := by
  intro e he
  by_cases h1 : s.size ≠ r.size
  · simp [files_are_different, h1] at he
  · by_cases h2 : r.mtime < s.mtime
    · simp [files_are_different, h1, h2] at he
    · simp [files_are_different, h1, h2] at he
      rcases he with he | he
      · exact hash_file_log _ _ _ e he
      · exact hash_file_log _ _ _ e he

theorem scanFiles_log (excl : List GlobPattern) (p : List String) (loc : RepLoc) :
    ∀ fs, ∀ e ∈ (scanFiles excl p loc fs).2, isScanFileEvent e = true := by
  intro fs
  induction fs with
  | nil => intro e he; simp [scanFiles] at he
  | cons nf rest ih =>
    obtain ⟨n, fd⟩ := nf
    intro e he
    by_cases hx : should_exclude n excl
    · simp [scanFiles, hx] at he
      rcases he with rfl | he
      · rfl
      · exact ih e he
    · cases hc : checkEntry loc n with
      | none =>
        simp [scanFiles, hx, hc] at he
        exact ih e he
      | some st =>
        by_cases hd : (files_are_different (p ++ [n]) (p ++ [n]) (.file fd) st).1
        · simp [scanFiles, hx, hc, hd] at he
          rcases he with he | he
          · exact files_are_different_log _ _ _ _ e he
          · exact ih e he
        · simp [scanFiles, hx, hc, hd] at he
          rcases he with he | he
          · exact files_are_different_log _ _ _ _ e he
          · exact ih e he

theorem scanFiles_pairs (excl : List GlobPattern) (p : List String) (loc : RepLoc) :
    ∀ fs, (scanFiles excl p loc fs).1 = expFiles excl p (locFind loc) fs := by
  intro fs
  induction fs with
  | nil => simp [scanFiles, expFiles]
  | cons nf rest ih =>
    obtain ⟨n, fd⟩ := nf
    by_cases hx : should_exclude n excl
    · simp [scanFiles, expFiles, hx, ih]
    · cases hc : checkEntry loc n with
      | none =>
        have hc' : toStat (locFind loc [n]) = none := by rw [← checkEntry_eq]; exact hc
        simp [scanFiles, expFiles, hx, hc, hc', ih]
      | some st =>
        have hc' : toStat (locFind loc [n]) = some st := by rw [← checkEntry_eq]; exact hc
        by_cases hd : differsB (.file fd) st
        · simp [scanFiles, expFiles, hx, hc, hc', files_are_different_fst, hd, ih]
        · simp [scanFiles, expFiles, hx, hc, hc', files_are_different_fst, hd, ih]

/-! Dry-run behaviour of each phase: the state is left untouched, no
abort occurs, and the decisions equal those computed against the
untouched replica. -/

mutual

theorem scanTree_dry : ∀ (excl : List GlobPattern) (p : List String) (s : FSTree) (loc : RepLoc),
    (scanTree excl true p s loc).loc = loc ∧
    (scanTree excl true p s loc).aborted = false ∧
    (scanTree excl true p s loc).pairs = expPairsT excl p (locFind loc) s ∧
    ∀ e ∈ (scanTree excl true p s loc).log, isScanFileEvent e = true
  | excl, p, .node m fs ds, loc => by
    have hd := scanDirs_dry excl p ds loc
    refine ⟨?_, ?_, ?_, ?_⟩
    · simp [scanTree, hd.1]
    · simp [scanTree, hd.2.1]
    · simp [scanTree, expPairsT, hd.2.2.1, scanFiles_pairs]
    · intro e he
      simp [scanTree] at he
      rcases he with he | he
      · exact scanFiles_log _ _ _ _ e he
      · exact hd.2.2.2 e he

theorem scanDirs_dry : ∀ (excl : List GlobPattern) (p : List String) (ds : DirList) (loc : RepLoc),
    (scanDirs excl true p ds loc).loc = loc ∧
    (scanDirs excl true p ds loc).aborted = false ∧
    (scanDirs excl true p ds loc).pairs = expPairsD excl p (locFind loc) ds ∧
    ∀ e ∈ (scanDirs excl true p ds loc).log, isScanFileEvent e = true
  | excl, p, .nil, loc => by simp [scanDirs, expPairsD]
  | excl, p, .cons n t rest, loc => by
    have hc := scanTree_dry excl (p ++ [n]) t (childLoc loc n)
    have hr := scanDirs_dry excl p rest loc
    have hself : applyChild loc n (scanTree excl true (p ++ [n]) t (childLoc loc n)).loc = loc := by
      rw [hc.1]; exact applyChild_childLoc_self loc n
    have hρ : expPairsT excl (p ++ [n]) (locFind (childLoc loc n)) t
        = expPairsT excl (p ++ [n]) (fun q => locFind loc (n :: q)) t := by
      have : locFind (childLoc loc n) = fun q => locFind loc (n :: q) := by
        funext q; exact locFind_childLoc loc n q
      rw [this]
    refine ⟨?_, ?_, ?_, ?_⟩
    · simp [scanDirs, hc.2.1, hself, hr.1]
    · simp [scanDirs, hc.2.1, hself, hr.2.1]
    · simp [scanDirs, expPairsD, hc.2.1, hself, hr.2.2.1, hc.2.2.1, hρ]
    · intro e he
      simp [scanDirs, hc.2.1, hself] at he
      rcases he with he | he
      · exact hc.2.2.2 e he
      · exact hr.2.2.2 e he

end

theorem applyPairs_dry (srcT : Option FSTree) (copyOk : SyncPair → Bool) (rep : Option FSTree) :
    ∀ prs, applyPairs true srcT copyOk rep prs
      = (rep, prs.map (fun pr => LogEvent.wouldCopy pr.sourcePath pr.replicaPath)) := by
  intro prs
  induction prs with
  | nil => simp [applyPairs]
  | cons pr rest ih => simp [applyPairs, copy_or_update_file, ih]

mutual

theorem pruneTree_dry : ∀ (srcEx : List String → Bool) (p : List String) (t : FSTree),
    (pruneTree true srcEx p t).1 = t ∧
    ∀ e ∈ (pruneTree true srcEx p t).2, isDryPruneEvent e = true
  | srcEx, p, .node m fs ds => by
    have hd := pruneDirs_dry srcEx p ds
    refine ⟨by simp [pruneTree, hd.1], ?_⟩
    intro e he
    simp [pruneTree] at he
    rcases he with ⟨x, _, rfl⟩ | he
    · rfl
    · exact hd.2 e (by simp [he])

theorem pruneDirs_dry : ∀ (srcEx : List String → Bool) (p : List String) (ds : DirList),
    (pruneDirs true srcEx p ds).1 = ds ∧
    ∀ e ∈ (pruneDirs true srcEx p ds).2.1 ++ (pruneDirs true srcEx p ds).2.2,
      isDryPruneEvent e = true
  | srcEx, p, .nil => by simp [pruneDirs]
  | srcEx, p, .cons n t rest => by
    have hc := pruneTree_dry srcEx (p ++ [n]) t
    have hr := pruneDirs_dry srcEx p rest
    by_cases hs : srcEx (p ++ [n])
    · refine ⟨by simp [pruneDirs, hs, hc.1, hr.1], ?_⟩
      intro e he
      simp [pruneDirs, hs] at he
      rcases he with he | he | he
      · exact hr.2 e (by simp [he])
      · exact hc.2 e he
      · exact hr.2 e (by simp [he])
    · refine ⟨by simp [pruneDirs, hs, hr.1], ?_⟩
      intro e he
      simp [pruneDirs, hs] at he
      rcases he with rfl | he | he | he
      · rfl
      · exact hr.2 e (by simp [he])
      · exact hc.2 e he
      · exact hr.2 e (by simp [he])

end

/-! Resolution of composite paths, and behaviour of the real prune
phase: orphans are removed, entries with a source counterpart are
kept. -/

theorem find_append : ∀ (q₁ : List String) (t : FSTree) (q₂ : List String),
    t.find (q₁ ++ q₂) = (match t.find q₁ with
      | .dir t' => t'.find q₂
      | .file fd => (match q₂ with | [] => .file fd | _ :: _ => .missing)
      | .missing => .missing) := by
  intro q₁
  induction q₁ with
  | nil => intro t q₂; simp [FSTree.find]
  | cons n r ih =>
    intro t q₂
    cases t with
    | node m fs ds =>
      simp only [List.cons_append, FSTree.find, FSTree.dirs, FSTree.files]
      cases h : ds.lookupD n with
      | some t' => simp [ih]
      | none =>
        cases r with
        | nil =>
          cases q₂ with
          | nil => cases hf : lookupN n fs <;> simp [hf]
          | cons a b => cases hf : lookupN n fs <;> simp [hf]
        | cons a b => simp

theorem existsInSrc_append (src : Option FSTree) (q₁ q₂ : List String)
    (h : existsInSrc src (q₁ ++ q₂) = true) : existsInSrc src q₁ = true := by
  cases src with
  | none => simp [existsInSrc] at h
  | some t =>
    simp only [existsInSrc] at h ⊢
    rw [find_append q₁ t q₂] at h
    cases hf : t.find q₁ with
    | missing => rw [hf] at h; simp at h
    | file fd => simp
    | dir t' => simp

theorem lookupN_filter_of_true {β : Type} (n : String) (pred : String × β → Bool)
    (hp : ∀ b, pred (n, b) = true) :
    ∀ (fs : List (String × β)),
      lookupN n (fs.filter pred) = lookupN n fs := by
  intro fs
  induction fs with
  | nil => simp [lookupN]
  | cons e rest ih =>
    obtain ⟨k, b⟩ := e
    by_cases hk : k = n
    · subst hk
      simp [List.filter, hp b, lookupN]
    · by_cases hkp : pred (k, b) = true <;>
        simp [List.filter, hkp, lookupN, hk, ih]

theorem lookupN_filter_of_false {β : Type} (n : String) (pred : String × β → Bool)
    (hp : ∀ b, pred (n, b) = false) :
    ∀ (fs : List (String × β)),
      lookupN n (fs.filter pred) = none := by
  intro fs
  induction fs with
  | nil => simp [lookupN]
  | cons e rest ih =>
    obtain ⟨k, b⟩ := e
    by_cases hk : k = n
    · subst hk
      simp [List.filter, hp b, ih]
    · by_cases hkp : pred (k, b) = true <;>
        simp [List.filter, hkp, lookupN, hk, ih]

theorem find_cons (t : FSTree) (n : String) (rest : List String) :
    t.find (n :: rest) = (match t.dirs.lookupD n with
      | some t' => t'.find rest
      | none =>
        match rest with
        | [] =>
          (match lookupN n t.files with
           | some fd => FindResult.file fd
           | none => FindResult.missing)
        | _ :: _ => FindResult.missing) := by
  cases t
  rfl

theorem pruneDirs_lookupD_of_none (srcEx : List String → Bool) (p : List String) (n : String) :
    ∀ ds : DirList, ds.lookupD n = none →
      ((pruneDirs false srcEx p ds).1).lookupD n = none
  | .nil => by intro h; simp [pruneDirs, DirList.lookupD]
  | .cons k u rest => by
    intro h
    have hk : ¬k = n := by
      intro hkn
      simp [DirList.lookupD, hkn] at h
    have h' : rest.lookupD n = none := by simpa [DirList.lookupD, hk] using h
    by_cases hs : srcEx (p ++ [k]) <;>
      simp [pruneDirs, hs, DirList.lookupD, hk,
        pruneDirs_lookupD_of_none srcEx p n rest h']

theorem pruneDirs_lookupD_orphan (srcEx : List String → Bool) (p : List String) (n : String)
    (hn : srcEx (p ++ [n]) = false) :
    ∀ ds : DirList, ((pruneDirs false srcEx p ds).1).lookupD n = none
  | .nil => by simp [pruneDirs, DirList.lookupD]
  | .cons k u rest => by
    have ih := pruneDirs_lookupD_orphan srcEx p n hn rest
    by_cases hk : k = n
    · have hs : srcEx (p ++ [k]) = false := by rw [hk]; exact hn
      simp [pruneDirs, hs, ih]
    · by_cases hs : srcEx (p ++ [k]) <;>
        simp [pruneDirs, hs, DirList.lookupD, hk, ih]

theorem pruneDirs_lookupD_kept (srcEx : List String → Bool) (p : List String) (n : String)
    (hn : srcEx (p ++ [n]) = true) :
    ∀ (ds : DirList) (sub : FSTree), ds.lookupD n = some sub →
      ((pruneDirs false srcEx p ds).1).lookupD n
        = some (pruneTree false srcEx (p ++ [n]) sub).1
  | .nil, sub => by intro h; simp [DirList.lookupD] at h
  | .cons k u rest, sub => by
    intro h
    by_cases hk : k = n
    · subst hk
      have hu : u = sub := by simpa [DirList.lookupD] using h
      subst hu
      simp [pruneDirs, hn, DirList.lookupD]
    · have h' : rest.lookupD n = some sub := by simpa [DirList.lookupD, hk] using h
      by_cases hs : srcEx (p ++ [k]) <;>
        simp [pruneDirs, hs, DirList.lookupD, hk,
          pruneDirs_lookupD_kept srcEx p n hn rest sub h']

theorem pruneTree_node (srcEx : List String → Bool) (p : List String)
    (m : DirMeta) (fs : List (String × FileData)) (ds : DirList) :
    (pruneTree false srcEx p (FSTree.node m fs ds)).1
      = FSTree.node m (fs.filter (fun e => srcEx (p ++ [e.1])))
          (pruneDirs false srcEx p ds).1 := by
  simp [pruneTree]

theorem pruneTree_removes (srcEx : List String → Bool) :
    ∀ (q : List String) (t : FSTree) (p : List String), q ≠ [] →
      srcEx (p ++ q) = false →
      ((pruneTree false srcEx p t).1).find q = .missing := by
  intro q
  induction q with
  | nil => intro t p hq; exact absurd rfl hq
  | cons n rest ih =>
    intro t p _ horph
    cases t with
    | node m fs ds =>
      rw [pruneTree_node, find_cons]
      by_cases hn : srcEx (p ++ [n]) = true
      · have hrestne : rest ≠ [] := by
          intro hre
          rw [hre] at horph
          rw [horph] at hn
          simp at hn
        simp only [FSTree.dirs]
        cases hd : ds.lookupD n with
        | some sub =>
          simp only [pruneDirs_lookupD_kept srcEx p n hn ds sub hd]
          exact ih sub (p ++ [n]) hrestne
            (by rw [List.append_assoc]; simpa using horph)
        | none =>
          simp only [pruneDirs_lookupD_of_none srcEx p n ds hd]
          cases rest with
          | nil => exact absurd rfl hrestne
          | cons a b => simp
      · have hn' : srcEx (p ++ [n]) = false := by
          cases h : srcEx (p ++ [n]) with
          | false => rfl
          | true => exact absurd h hn
        simp only [FSTree.dirs, pruneDirs_lookupD_orphan srcEx p n hn' ds]
        cases rest with
        | nil =>
          simp only [FSTree.files]
          rw [lookupN_filter_of_false n (fun e => srcEx (p ++ [e.1])) (fun _ => hn') fs]
        | cons a b => simp

theorem pruneTree_keeps_file (srcEx : List String → Bool)
    (hpre : ∀ q₁ q₂, srcEx (q₁ ++ q₂) = true → srcEx q₁ = true) :
    ∀ (q : List String) (t : FSTree) (p : List String) (fd : FileData),
      t.find q = .file fd → srcEx (p ++ q) = true →
      ((pruneTree false srcEx p t).1).find q = .file fd := by
  intro q
  induction q with
  | nil => intro t p fd hf; simp [FSTree.find] at hf
  | cons n rest ih =>
    intro t p fd hf hsrc
    cases t with
    | node m fs ds =>
      rw [pruneTree_node, find_cons]
      rw [find_cons] at hf
      simp only [FSTree.dirs, FSTree.files] at hf ⊢
      have hn : srcEx (p ++ [n]) = true := by
        have h1 : p ++ n :: rest = (p ++ [n]) ++ rest := by simp
        rw [h1] at hsrc
        exact hpre (p ++ [n]) rest hsrc
      cases hd : ds.lookupD n with
      | some sub =>
        rw [hd] at hf
        simp only [pruneDirs_lookupD_kept srcEx p n hn ds sub hd]
        exact ih sub (p ++ [n]) fd hf
          (by rw [List.append_assoc]; simpa using hsrc)
      | none =>
        rw [hd] at hf
        simp only [pruneDirs_lookupD_of_none srcEx p n ds hd]
        cases rest with
        | nil =>
          rw [lookupN_filter_of_true n (fun e => srcEx (p ++ [e.1])) (fun _ => hn) fs]
          exact hf
        | cons a b => simp at hf

theorem pruneTree_keeps_dir (srcEx : List String → Bool)
    (hpre : ∀ q₁ q₂, srcEx (q₁ ++ q₂) = true → srcEx q₁ = true) :
    ∀ (q : List String) (t : FSTree) (p : List String) (sub : FSTree),
      t.find q = .dir sub → srcEx (p ++ q) = true →
      ((pruneTree false srcEx p t).1).find q
        = .dir (pruneTree false srcEx (p ++ q) sub).1 := by
  intro q
  induction q with
  | nil =>
    intro t p sub hf _
    have ht : t = sub := by
      cases t
      cases hf
      rfl
    subst ht
    simp [FSTree.find]
  | cons n rest ih =>
    intro t p sub hf hsrc
    cases t with
    | node m fs ds =>
      rw [pruneTree_node, find_cons]
      rw [find_cons] at hf
      simp only [FSTree.dirs, FSTree.files] at hf ⊢
      have hn : srcEx (p ++ [n]) = true := by
        have h1 : p ++ n :: rest = (p ++ [n]) ++ rest := by simp
        rw [h1] at hsrc
        exact hpre (p ++ [n]) rest hsrc
      cases hd : ds.lookupD n with
      | some s0 =>
        rw [hd] at hf
        simp only [pruneDirs_lookupD_kept srcEx p n hn ds s0 hd]
        have hrec := ih s0 (p ++ [n]) sub hf
          (by rw [List.append_assoc]; simpa using hsrc)
        rw [hrec]
        have h2 : (p ++ [n]) ++ rest = p ++ n :: rest := by simp
        rw [h2]
      | none =>
        rw [hd] at hf
        cases rest with
        | nil => cases hfl : lookupN n fs <;> rw [hfl] at hf <;> cases hf
        | cons a b => cases hf

mutual

/-- Every file and subdirectory of the tree placed at position `p` has a
source counterpart according to `srcEx`, recursively. -/
def noOrphT (srcEx : List String → Bool) : List String → FSTree → Bool
  | p, .node _ fs ds => fs.all (fun e => srcEx (p ++ [e.1])) && noOrphD srcEx p ds

/-- Companion of `noOrphT` for subdirectory listings. -/
def noOrphD (srcEx : List String → Bool) : List String → DirList → Bool
  | _, .nil => true
  | p, .cons n t rest =>
    srcEx (p ++ [n]) && noOrphT srcEx (p ++ [n]) t && noOrphD srcEx p rest

end

mutual

theorem pruneTree_noOrph : ∀ (srcEx : List String → Bool) (p : List String) (t : FSTree),
    noOrphT srcEx p (pruneTree false srcEx p t).1 = true
  | srcEx, p, .node m fs ds => by
    have hd := pruneDirs_noOrph srcEx p ds
    simp only [pruneTree, noOrphT, hd, Bool.and_true]
    simp [List.all_eq_true]

theorem pruneDirs_noOrph : ∀ (srcEx : List String → Bool) (p : List String) (ds : DirList),
    noOrphD srcEx p (pruneDirs false srcEx p ds).1 = true
  | srcEx, p, .nil => by simp [pruneDirs, noOrphD]
  | srcEx, p, .cons n t rest => by
    have hr := pruneDirs_noOrph srcEx p rest
    by_cases hs : srcEx (p ++ [n])
    · have hc := pruneTree_noOrph srcEx (p ++ [n]) t
      simp [pruneDirs, hs, noOrphD, hc, hr]
    · simp [pruneDirs, hs, hr]

end

mutual

theorem pruneTree_noop : ∀ (srcEx : List String → Bool) (p : List String) (t : FSTree),
    noOrphT srcEx p t = true → pruneTree false srcEx p t = (t, [])
  | srcEx, p, .node m fs ds => by
    intro h
    simp only [noOrphT, Bool.and_eq_true, List.all_eq_true] at h
    have hd := pruneDirs_noop srcEx p ds h.2
    have hfilter : fs.filter (fun e => srcEx (p ++ [e.1])) = fs :=
      List.filter_eq_self.mpr h.1
    have hnil : fs.filter (fun e => !srcEx (p ++ [e.1])) = [] := by
      apply List.filter_eq_nil_iff.mpr
      intro a ha
      simp [h.1 a ha]
    simp [pruneTree, hfilter, hnil, hd]

theorem pruneDirs_noop : ∀ (srcEx : List String → Bool) (p : List String) (ds : DirList),
    noOrphD srcEx p ds = true → pruneDirs false srcEx p ds = (ds, ([], []))
  | srcEx, p, .nil => by intro h; simp [pruneDirs]
  | srcEx, p, .cons n t rest => by
    intro h
    simp only [noOrphD, Bool.and_eq_true] at h
    have hc := pruneTree_noop srcEx (p ++ [n]) t h.1.2
    have hr := pruneDirs_noop srcEx p rest h.2
    simp [pruneDirs, h.1.1, hc, hr]

end

/-- Records the real prune phase can emit. -/
def isPruneEvent : LogEvent → Bool
  | .removedFile _ => true
  | .removedDirectory _ => true
  | _ => false

mutual

theorem pruneTree_log : ∀ (srcEx : List String → Bool) (p : List String) (t : FSTree),
    ∀ e ∈ (pruneTree false srcEx p t).2, isPruneEvent e = true
  | srcEx, p, .node m fs ds => by
    intro e he
    have hd := pruneDirs_log srcEx p ds
    simp [pruneTree] at he
    rcases he with ⟨x, _, rfl⟩ | he
    · rfl
    · exact hd e (by simp [he])

theorem pruneDirs_log : ∀ (srcEx : List String → Bool) (p : List String) (ds : DirList),
    ∀ e ∈ (pruneDirs false srcEx p ds).2.1 ++ (pruneDirs false srcEx p ds).2.2,
      isPruneEvent e = true
  | srcEx, p, .nil => by intro e he; simp [pruneDirs] at he
  | srcEx, p, .cons n t rest => by
    intro e he
    have hc := pruneTree_log srcEx (p ++ [n]) t
    have hr := pruneDirs_log srcEx p rest
    by_cases hs : srcEx (p ++ [n])
    · simp [pruneDirs, hs] at he
      rcases he with he | he | he
      · exact hr e (by simp [he])
      · exact hc e he
      · exact hr e (by simp [he])
    · simp [pruneDirs, hs] at he
      rcases he with rfl | he | he
      · rfl
      · exact hr e (by simp [he])
      · exact hr e (by simp [he])

end

theorem pruneDirs_dry_mem_child (srcEx : List String → Bool) (p : List String)
    (n : String) (e : LogEvent) :
    ∀ (ds : DirList) (sub : FSTree), ds.lookupD n = some sub →
      e ∈ (pruneTree true srcEx (p ++ [n]) sub).2 →
      e ∈ (pruneDirs true srcEx p ds).2.2
  | .nil, sub => by intro h; simp [DirList.lookupD] at h
  | .cons k u rest, sub => by
    intro h he
    by_cases hk : k = n
    · have hu : u = sub := by simpa [DirList.lookupD, hk] using h
      subst hu
      subst hk
      by_cases hs : srcEx (p ++ [k]) <;>
        simp [pruneDirs, hs] <;> exact Or.inl he
    · have h' : rest.lookupD n = some sub := by simpa [DirList.lookupD, hk] using h
      have hr := pruneDirs_dry_mem_child srcEx p n e rest sub h' he
      by_cases hs : srcEx (p ++ [k]) <;>
        simp [pruneDirs, hs] <;> exact Or.inr hr

theorem pruneDirs_dry_mem_orphdir (srcEx : List String → Bool) (p : List String)
    (n : String) (hn : srcEx (p ++ [n]) = false) :
    ∀ (ds : DirList) (sub : FSTree), ds.lookupD n = some sub →
      LogEvent.wouldRemoveDirectory (p ++ [n]) ∈ (pruneDirs true srcEx p ds).2.1
  | .nil, sub => by intro h; simp [DirList.lookupD] at h
  | .cons k u rest, sub => by
    intro h
    by_cases hk : k = n
    · subst hk
      simp [pruneDirs, hn]
    · have h' : rest.lookupD n = some sub := by simpa [DirList.lookupD, hk] using h
      have hr := pruneDirs_dry_mem_orphdir srcEx p n hn rest sub h'
      by_cases hs : srcEx (p ++ [k])
      · simpa [pruneDirs, hs] using hr
      · simp [pruneDirs, hs]
        exact Or.inr hr

theorem pruneTree_dry_mem_file (srcEx : List String → Bool) :
    ∀ (q : List String) (t : FSTree) (p : List String) (n : String) (fd : FileData),
      t.find (q ++ [n]) = .file fd → srcEx (p ++ q ++ [n]) = false →
      LogEvent.wouldRemoveFile (p ++ q ++ [n]) ∈ (pruneTree true srcEx p t).2 := by
  intro q
  induction q with
  | nil =>
    intro t p n fd hf horph
    cases t with
    | node m fs ds =>
      rw [List.nil_append] at hf
      rw [find_cons] at hf
      simp only [FSTree.dirs, FSTree.files] at hf
      cases hd : ds.lookupD n with
      | some sub => rw [hd] at hf; cases hf
      | none =>
        rw [hd] at hf
        cases hfl : lookupN n fs with
        | none => rw [hfl] at hf; cases hf
        | some fd' =>
          have hmem := lookupN_mem n fs fd' hfl
          have horph' : srcEx (p ++ [n]) = false := by simpa using horph
          have hmemf : (n, fd') ∈ List.filter (fun e => !srcEx (p ++ [e.1])) fs := by
            simp [List.mem_filter, hmem, horph']
          simp only [pruneTree]
          apply List.mem_append_left
          apply List.mem_append_left
          simp only [List.mem_map]
          exact ⟨(n, fd'), hmemf, by simp [horph']⟩
  | cons a q' ih =>
    intro t p n fd hf horph
    cases t with
    | node m fs ds =>
      rw [List.cons_append, find_cons] at hf
      simp only [FSTree.dirs] at hf
      cases hd : ds.lookupD a with
      | none =>
        rw [hd] at hf
        cases hq : q' ++ [n] with
        | nil => simp at hq
        | cons x y => rw [hq] at hf; cases hf
      | some sub =>
        rw [hd] at hf
        have horph' : srcEx ((p ++ [a]) ++ q' ++ [n]) = false := by
          have h1 : (p ++ [a]) ++ q' ++ [n] = p ++ (a :: q') ++ [n] := by simp
          rw [h1]
          exact horph
        have hrec := ih sub (p ++ [a]) n fd hf horph'
        have hin := pruneDirs_dry_mem_child srcEx p a
          (LogEvent.wouldRemoveFile ((p ++ [a]) ++ q' ++ [n])) ds sub hd hrec
        have hpath : (p ++ [a]) ++ q' ++ [n] = p ++ (a :: q') ++ [n] := by simp
        rw [hpath] at hin
        simp only [pruneTree]
        apply List.mem_append_right
        exact hin

theorem pruneTree_dry_mem_dir (srcEx : List String → Bool) :
    ∀ (q : List String) (t : FSTree) (p : List String) (n : String) (sub : FSTree),
      t.find (q ++ [n]) = .dir sub → srcEx (p ++ q ++ [n]) = false →
      LogEvent.wouldRemoveDirectory (p ++ q ++ [n]) ∈ (pruneTree true srcEx p t).2 := by
  intro q
  induction q with
  | nil =>
    intro t p n sub hf horph
    cases t with
    | node m fs ds =>
      rw [List.nil_append] at hf
      rw [find_cons] at hf
      simp only [FSTree.dirs, FSTree.files] at hf
      cases hd : ds.lookupD n with
      | none =>
        rw [hd] at hf
        cases hfl : lookupN n fs <;> rw [hfl] at hf <;> cases hf
      | some s0 =>
        rw [hd] at hf
        have horph' : srcEx (p ++ [n]) = false := by simpa using horph
        have hin := pruneDirs_dry_mem_orphdir srcEx p n horph' ds s0 hd
        have hpath : p ++ [] ++ [n] = p ++ [n] := by simp
        rw [hpath]
        simp only [pruneTree]
        apply List.mem_append_left
        apply List.mem_append_right
        exact hin
  | cons a q' ih =>
    intro t p n sub hf horph
    cases t with
    | node m fs ds =>
      rw [List.cons_append, find_cons] at hf
      simp only [FSTree.dirs] at hf
      cases hd : ds.lookupD a with
      | none =>
        rw [hd] at hf
        cases hq : q' ++ [n] with
        | nil => simp at hq
        | cons x y => rw [hq] at hf; cases hf
      | some s0 =>
        rw [hd] at hf
        have horph' : srcEx ((p ++ [a]) ++ q' ++ [n]) = false := by
          have h1 : (p ++ [a]) ++ q' ++ [n] = p ++ (a :: q') ++ [n] := by simp
          rw [h1]
          exact horph
        have hrec := ih s0 (p ++ [a]) n sub hf horph'
        have hin := pruneDirs_dry_mem_child srcEx p a
          (LogEvent.wouldRemoveDirectory ((p ++ [a]) ++ q' ++ [n])) ds s0 hd hrec
        have hpath : (p ++ [a]) ++ q' ++ [n] = p ++ (a :: q') ++ [n] := by simp
        rw [hpath] at hin
        simp only [pruneTree]
        apply List.mem_append_right
        exact hin

/-! Glue lemmas used to unfold the driver. -/

theorem scanFileEvent_not_wouldCopy (e : LogEvent) (h : isScanFileEvent e = true) :
    isWouldCopy e = false := by
  cases e <;> simp [isScanFileEvent, isWouldCopy] at h ⊢

theorem scanFileEvent_not_mutating (e : LogEvent) (h : isScanFileEvent e = true) :
    isMutating e = false := by
  cases e <;> simp [isScanFileEvent, isMutating] at h ⊢

theorem dryPruneEvent_not_wouldCopy (e : LogEvent) (h : isDryPruneEvent e = true) :
    isWouldCopy e = false := by
  cases e <;> simp [isDryPruneEvent, isWouldCopy] at h ⊢

theorem dryPruneEvent_not_mutating (e : LogEvent) (h : isDryPruneEvent e = true) :
    isMutating e = false := by
  cases e <;> simp [isDryPruneEvent, isMutating] at h ⊢

theorem applyChild_dir (t : FSTree) (n : String) (x : RepLoc) :
    ∃ t'', applyChild (.dir t) n x = .dir t'' := by
  cases x <;> simp [applyChild]

theorem scanDirs_loc_dir : ∀ (excl : List GlobPattern) (p : List String)
    (ds : DirList) (t : FSTree),
    ∃ t', (scanDirs excl false p ds (.dir t)).loc = .dir t'
  | excl, p, .nil, t => ⟨t, by simp [scanDirs]⟩
  | excl, p, .cons n u rest, t => by
    obtain ⟨t1, ht1⟩ :=
      applyChild_dir t n (scanTree excl false (p ++ [n]) u (childLoc (.dir t) n)).loc
    by_cases hab : (scanTree excl false (p ++ [n]) u (childLoc (.dir t) n)).aborted
    · exact ⟨t1, by simp [scanDirs, hab, ht1]⟩
    · obtain ⟨t2, ht2⟩ := scanDirs_loc_dir excl p rest t1
      refine ⟨t2, ?_⟩
      simp only [scanDirs, hab, ht1]
      simpa using ht2

theorem scanTree_loc_dir (excl : List GlobPattern) (p : List String)
    (s : FSTree) (t : FSTree) :
    ∃ t', (scanTree excl false p s (.dir t)).loc = .dir t' := by
  cases s with
  | node m fs ds =>
    obtain ⟨t', ht'⟩ := scanDirs_loc_dir excl p ds t
    exact ⟨t', by simpa [scanTree, RepLoc.isBlocked, RepLoc.isMissing] using ht'⟩

theorem copy_real_some (srcT : Option FSTree) (copyOk : SyncPair → Bool)
    (r : FSTree) (pr : SyncPair) :
    ∃ r', (copy_or_update_file false srcT copyOk (some r) pr).1 = some r' := by
  cases srcT with
  | none => exact ⟨r, by simp [copy_or_update_file]⟩
  | some st =>
    simp only [copy_or_update_file]
    cases hf : st.find pr.sourcePath with
    | file sfd =>
      by_cases hok : (copyOk pr && sfd.readable) = true
      · simp only [hok, if_true, Bool.false_eq_true, if_false]
        cases hset : setFileAt r (match r.find pr.replicaPath with
          | .dir _ => pr.replicaPath ++ [pr.sourcePath.getLastD ""]
          | _ => pr.replicaPath) ⟨sfd.content, sfd.mtime, true⟩ with
        | some r' => exact ⟨r', by simp [hset]⟩
        | none => exact ⟨r, by simp [hset]⟩
      · exact ⟨r, by simp [hok]⟩
    | missing => exact ⟨r, by simp⟩
    | dir t' => exact ⟨r, by simp⟩

theorem applyPairs_some (srcT : Option FSTree) (copyOk : SyncPair → Bool) :
    ∀ (prs : List SyncPair) (r : FSTree),
    ∃ r', (applyPairs false srcT copyOk (some r) prs).1 = some r' := by
  intro prs
  induction prs with
  | nil => intro r; exact ⟨r, by simp [applyPairs]⟩
  | cons pr rest ih =>
    intro r
    obtain ⟨r1, hr1⟩ := copy_real_some srcT copyOk r pr
    obtain ⟨r2, hr2⟩ := ih r1
    refine ⟨r2, ?_⟩
    simp only [applyPairs]
    rw [hr1]
    exact hr2

theorem pruneDirs_all_orphans (srcEx : List String → Bool)
    (hall : ∀ q, srcEx q = false) (p : List String) :
    ∀ ds : DirList, (pruneDirs false srcEx p ds).1 = .nil
  | .nil => by simp [pruneDirs]
  | .cons n t rest => by
    simp [pruneDirs, hall (p ++ [n]), pruneDirs_all_orphans srcEx hall p rest]

theorem sync_dry_eq_somesome (st t : FSTree) (excl : List GlobPattern)
    (copyOk : SyncPair → Bool) :
    sync_folders (some st) (some t) true excl copyOk =
      ⟨some t, (scanTree excl true [] st (.dir t)).pairs,
       (scanTree excl true [] st (.dir t)).log
         ++ (scanTree excl true [] st (.dir t)).pairs.map
             (fun pr => LogEvent.wouldCopy pr.sourcePath pr.replicaPath)
         ++ (pruneTree true (existsInSrc (some st)) [] t).2,
       false⟩ := by
  have hs := scanTree_dry excl [] st (.dir t)
  have hp := pruneTree_dry (existsInSrc (some st)) [] t
  simp [sync_folders, hs.1, hs.2.1, applyPairs_dry, locToOpt, hp.1]

theorem sync_dry_eq_nonesome (t : FSTree) (excl : List GlobPattern)
    (copyOk : SyncPair → Bool) :
    sync_folders none (some t) true excl copyOk =
      ⟨some t, [], (pruneTree true (existsInSrc none) [] t).2, false⟩ := by
  have hp := pruneTree_dry (existsInSrc none) [] t
  simp [sync_folders, applyPairs, locToOpt, hp.1]

theorem sync_dry_eq_somenone (st : FSTree) (excl : List GlobPattern)
    (copyOk : SyncPair → Bool) :
    sync_folders (some st) none true excl copyOk =
      ⟨none, (scanTree excl true [] st .missing).pairs,
       LogEvent.wouldCreateReplicaFolder
         :: ((scanTree excl true [] st .missing).log
             ++ (scanTree excl true [] st .missing).pairs.map
                 (fun pr => LogEvent.wouldCopy pr.sourcePath pr.replicaPath)),
       false⟩ := by
  have hs := scanTree_dry excl [] st .missing
  simp [sync_folders, hs.1, hs.2.1, applyPairs_dry, locToOpt]

theorem sync_dry_eq_nonenone (excl : List GlobPattern) (copyOk : SyncPair → Bool) :
    sync_folders none none true excl copyOk =
      ⟨none, [], [LogEvent.wouldCreateReplicaFolder], false⟩ := by
  simp [sync_folders, applyPairs, locToOpt]

theorem filter_wouldCopy_scan (excl : List GlobPattern) (p : List String)
    (s : FSTree) (loc : RepLoc) :
    (scanTree excl true p s loc).log.filter isWouldCopy = [] := by
  apply List.filter_eq_nil_iff.mpr
  intro e he
  simp [scanFileEvent_not_wouldCopy e ((scanTree_dry excl p s loc).2.2.2 e he)]

theorem filter_mutating_scan (excl : List GlobPattern) (p : List String)
    (s : FSTree) (loc : RepLoc) :
    (scanTree excl true p s loc).log.filter isMutating = [] := by
  apply List.filter_eq_nil_iff.mpr
  intro e he
  simp [scanFileEvent_not_mutating e ((scanTree_dry excl p s loc).2.2.2 e he)]

theorem filter_wouldCopy_prune (srcEx : List String → Bool) (t : FSTree) :
    (pruneTree true srcEx [] t).2.filter isWouldCopy = [] := by
  apply List.filter_eq_nil_iff.mpr
  intro e he
  simp [dryPruneEvent_not_wouldCopy e ((pruneTree_dry srcEx [] t).2 e he)]

theorem filter_mutating_prune (srcEx : List String → Bool) (t : FSTree) :
    (pruneTree true srcEx [] t).2.filter isMutating = [] := by
  apply List.filter_eq_nil_iff.mpr
  intro e he
  simp [dryPruneEvent_not_mutating e ((pruneTree_dry srcEx [] t).2 e he)]

theorem filter_wouldCopy_map (prs : List SyncPair) :
    (prs.map (fun pr => LogEvent.wouldCopy pr.sourcePath pr.replicaPath)).filter isWouldCopy
      = prs.map (fun pr => LogEvent.wouldCopy pr.sourcePath pr.replicaPath) := by
  apply List.filter_eq_self.mpr
  intro e he
  simp only [List.mem_map] at he
  obtain ⟨pr, _, rfl⟩ := he
  rfl

theorem filter_mutating_map (prs : List SyncPair) :
    (prs.map (fun pr => LogEvent.wouldCopy pr.sourcePath pr.replicaPath)).filter isMutating
      = [] := by
  apply List.filter_eq_nil_iff.mpr
  intro e he
  simp only [List.mem_map] at he
  obtain ⟨pr, _, rfl⟩ := he
  simp [isMutating]

/-- C1 (amended): a dry-run pass performs no filesystem mutation and
raises no error - the replica tree is returned exactly unchanged; it
logs exactly one 'would copy' line per pending pair and logs no executed
mutation at all, and for every orphan replica file or subdirectory it
logs one would-remove line; however, an absent replica subdirectory
produces no 'would create' log line under dry run (only an absent
replica root is announced), so dry-run logging is not identical to the
logging of a real pass. -/
theorem c1_dry_run_no_mutation (src rep : Option FSTree) (excl : List GlobPattern)
    (copyOk : SyncPair → Bool) :
    (sync_folders src rep true excl copyOk).replica = rep ∧
    (sync_folders src rep true excl copyOk).raised = false ∧
    (sync_folders src rep true excl copyOk).log.filter isWouldCopy
      = (sync_folders src rep true excl copyOk).pairs.map
          (fun pr => LogEvent.wouldCopy pr.sourcePath pr.replicaPath) ∧
    (sync_folders src rep true excl copyOk).log.filter isMutating = [] ∧
    (∀ t q n fd, rep = some t → t.find (q ++ [n]) = .file fd →
      existsInSrc src (q ++ [n]) = false →
      LogEvent.wouldRemoveFile (q ++ [n])
        ∈ (sync_folders src rep true excl copyOk).log) ∧
    (∀ t q n sub, rep = some t → t.find (q ++ [n]) = .dir sub →
      existsInSrc src (q ++ [n]) = false →
      LogEvent.wouldRemoveDirectory (q ++ [n])
        ∈ (sync_folders src rep true excl copyOk).log) := by
  cases rep with
  | some t =>
    cases src with
    | some st =>
      rw [sync_dry_eq_somesome st t excl copyOk]
      refine ⟨rfl, rfl, ?_, ?_, ?_, ?_⟩
      · simp only [List.filter_append, filter_wouldCopy_scan, filter_wouldCopy_map,
          filter_wouldCopy_prune]
        simp
      · simp only [List.filter_append, filter_mutating_scan, filter_mutating_map,
          filter_mutating_prune]
        simp
      · intro t' q n fd ht hf horph
        injection ht with hinj
        subst hinj
        have hm := pruneTree_dry_mem_file (existsInSrc (some st)) q t [] n fd hf
          (by simpa using horph)
        simp only [List.nil_append] at hm
        simp only [List.mem_append]
        right
        exact hm
      · intro t' q n sub ht hf horph
        injection ht with hinj
        subst hinj
        have hm := pruneTree_dry_mem_dir (existsInSrc (some st)) q t [] n sub hf
          (by simpa using horph)
        simp only [List.nil_append] at hm
        simp only [List.mem_append]
        right
        exact hm
    | none =>
      rw [sync_dry_eq_nonesome t excl copyOk]
      refine ⟨rfl, rfl, ?_, ?_, ?_, ?_⟩
      · simp [filter_wouldCopy_prune]
      · simp [filter_mutating_prune]
      · intro t' q n fd ht hf horph
        injection ht with hinj
        subst hinj
        have hm := pruneTree_dry_mem_file (existsInSrc none) q t [] n fd hf
          (by simpa using horph)
        simpa using hm
      · intro t' q n sub ht hf horph
        injection ht with hinj
        subst hinj
        have hm := pruneTree_dry_mem_dir (existsInSrc none) q t [] n sub hf
          (by simpa using horph)
        simpa using hm
  | none =>
    cases src with
    | some st =>
      rw [sync_dry_eq_somenone st excl copyOk]
      refine ⟨rfl, rfl, ?_, ?_, ?_, ?_⟩
      · simp only [List.filter_cons, List.filter_append, filter_wouldCopy_scan,
          filter_wouldCopy_map]
        simp [isWouldCopy]
      · simp only [List.filter_cons, List.filter_append, filter_mutating_scan,
          filter_mutating_map]
        simp [isMutating]
      · intro t' q n fd ht
        cases ht
      · intro t' q n sub ht
        cases ht
    | none =>
      rw [sync_dry_eq_nonenone excl copyOk]
      refine ⟨rfl, rfl, by simp [isWouldCopy], by simp [isMutating], ?_, ?_⟩
      · intro t' q n fd ht
        cases ht
      · intro t' q n sub ht
        cases ht

/-! Concrete inputs used by witnesses and counterexamples. -/

/-- Copy oracle with no environmental failure. -/
def okAll : SyncPair → Bool := fun _ => true

/-- A source tree holding exactly one empty subdirectory `d`. -/
def srcDirOnly : FSTree := .node ⟨0, 0⟩ [] (.cons "d" emptyDir .nil)

/-- A replica holding exactly one file `orphan.txt`. -/
def repOrphan : FSTree := .node ⟨0, 0⟩ [("orphan.txt", ⟨[5], 1, true⟩)] .nil

/-- C1 is refuted on the code: for a source tree with one subdirectory
`d` that is absent from the (existing, empty) replica, a dry-run pass
logs nothing at all - in particular there is no 'would create' line for
the absent directory - while the corresponding real pass logs the
directory creation, so a dry run does not compute and log every decision
identically to a real pass. -/
theorem c1_counterexample :
    (sync_folders (some srcDirOnly) (some emptyDir) true [] okAll).log = [] ∧
    (sync_folders (some srcDirOnly) (some emptyDir) false [] okAll).log
      = [LogEvent.createdDirectory ["d"]] ∧
    emptyDir.find ["d"] = FindResult.missing ∧
    (sync_folders (some srcDirOnly) (some emptyDir) true [] okAll).replica
      = some emptyDir :=
  ⟨rfl, rfl, rfl, rfl⟩

/-- Witness for the amended C1 at a concrete input: the dry run leaves a
replica with an orphan file untouched and logs the intended removal. -/
theorem c1_dry_run_no_mutation_witness :
    (sync_folders (some emptyDir) (some repOrphan) true [] okAll).replica
      = some repOrphan ∧
    LogEvent.wouldRemoveFile ["orphan.txt"]
      ∈ (sync_folders (some emptyDir) (some repOrphan) true [] okAll).log := by
  have h := c1_dry_run_no_mutation (some emptyDir) (some repOrphan) [] okAll
  refine ⟨h.1, ?_⟩
  have hm := h.2.2.2.2.1 repOrphan [] "orphan.txt" ⟨[5], 1, true⟩ rfl rfl rfl
  simpa using hm

/-- Source tree of the C3 counterexample: a subdirectory `d` containing
a subdirectory `e`. -/
def srcConflict : FSTree :=
  .node ⟨0, 0⟩ [] (.cons "d" (.node ⟨0, 0⟩ [] (.cons "e" emptyDir .nil)) .nil)

/-- Replica of the C3 counterexample: a regular file `d` (conflicting
with the source directory `d`) and an orphan file `x`. -/
def repConflict : FSTree :=
  .node ⟨0, 0⟩ [("d", ⟨[2], 1, true⟩), ("x", ⟨[3], 1, true⟩)] .nil

/-- C3 is refuted on the code: when the replica holds a regular file
where the scanner must create a source subdirectory's child directory,
`os.makedirs` raises and the exception escapes `sync_folders` before
pruning, so the orphan file `x`, which has no source counterpart, is
still present after the pass. -/
theorem c3_counterexample :
    (sync_folders (some srcConflict) (some repConflict) false [] okAll).raised = true ∧
    (sync_folders (some srcConflict) (some repConflict) false [] okAll).replica
      = some repConflict ∧
    srcConflict.find ["x"] = FindResult.missing ∧
    repConflict.find ["x"] = FindResult.file ⟨[3], 1, true⟩ :=
  ⟨rfl, rfl, rfl, rfl⟩

/-- C3 (amended): for every pair of trees for which the non-dry-run pass
completes without raising an exception, every replica entry whose
relative path has no corresponding entry in the source tree is absent
from the replica after the pass. -/
theorem c3_orphans_removed (src rep : FSTree) (excl : List GlobPattern)
    (copyOk : SyncPair → Bool) (q : List String) (hq : q ≠ [])
    (hraised : (sync_folders (some src) (some rep) false excl copyOk).raised = false)
    (horph : existsInSrc (some src) q = false) :
    ∃ t, (sync_folders (some src) (some rep) false excl copyOk).replica = some t ∧
      t.find q = FindResult.missing := by
  by_cases hab : (scanTree excl false [] src (.dir rep)).aborted
  · exfalso
    simp [sync_folders, hab] at hraised
  · obtain ⟨t1, ht1⟩ := scanTree_loc_dir excl [] src rep
    obtain ⟨r2, hr2⟩ :=
      applyPairs_some (some src) copyOk (scanTree excl false [] src (.dir rep)).pairs t1
    refine ⟨(pruneTree false (existsInSrc (some src)) [] r2).1, ?_, ?_⟩
    · simp [sync_folders, hab, ht1, locToOpt, hr2]
    · exact pruneTree_removes (existsInSrc (some src)) q r2 [] hq (by simpa using horph)

/-- Witness for the amended C3 at a concrete input: the orphan file of
`repOrphan` is gone after a real pass against an empty source tree. -/
theorem c3_orphans_removed_witness :
    ∃ t, (sync_folders (some emptyDir) (some repOrphan) false [] okAll).replica
        = some t ∧ t.find ["orphan.txt"] = FindResult.missing :=
  c3_orphans_removed emptyDir repOrphan [] okAll ["orphan.txt"] (by simp) rfl rfl

/-- C10: when the source root does not exist, a non-dry-run pass
completes without raising (it is not a pass-level failure): `os.walk` of
the absent source yields nothing, so no pair is collected, and the
pruning phase removes every file and every subdirectory of the replica,
leaving the replica root empty. -/
theorem c10_missing_source (rep : FSTree) (excl : List GlobPattern)
    (copyOk : SyncPair → Bool) :
    (sync_folders none (some rep) false excl copyOk).raised = false ∧
    (sync_folders none (some rep) false excl copyOk).pairs = [] ∧
    (sync_folders none (some rep) false excl copyOk).replica
      = some (FSTree.node rep.meta [] .nil) := by
  have hall : ∀ q : List String, existsInSrc none q = false := fun _ => rfl
  cases rep with
  | node m fs ds =>
    have hds := pruneDirs_all_orphans (existsInSrc none) hall [] ds
    refine ⟨by simp [sync_folders], by simp [sync_folders], ?_⟩
    simp [sync_folders, applyPairs, locToOpt, pruneTree, hds, FSTree.meta, existsInSrc]

/-- C4: for existing readable files, the comparator returns 'differs'
exactly by the short-circuit policy - true when the sizes differ;
otherwise true when the source modification time is strictly newer than
the replica's; otherwise true exactly when the streamed content digests
of the two files are unequal.  The first two steps answer `(true, [])`
without reading content for arbitrary stat entries, and a source file
with unchanged size and non-newer mtime but different bytes is still
detected as different via the digest step. -/
theorem c4_comparator (sp rp : List String) (s r : FileData)
    (hs : s.readable = true) (hr : r.readable = true) :
    ((files_are_different sp rp (.file s) (.file r)).1
        = (if s.content.length ≠ r.content.length then true
           else if r.mtime < s.mtime then true
           else decide (md5Digest s.content ≠ md5Digest r.content)))
    ∧ (files_are_different sp rp (.file s) (.file r)).2 = []
    ∧ (∀ s' r' : StatEntry, s'.size ≠ r'.size →
        files_are_different sp rp s' r' = (true, []))
    ∧ (∀ s' r' : StatEntry, s'.size = r'.size → r'.mtime < s'.mtime →
        files_are_different sp rp s' r' = (true, []))
    ∧ (s.content.length = r.content.length → ¬r.mtime < s.mtime →
        s.content ≠ r.content →
        (files_are_different sp rp (.file s) (.file r)).1 = true) := by
  refine ⟨?_, ?_, ?_, ?_, ?_⟩
  · by_cases h1 : s.content.length ≠ r.content.length
    · simp [files_are_different, StatEntry.size, h1]
    · by_cases h2 : r.mtime < s.mtime
      · simp [files_are_different, StatEntry.size, StatEntry.mtime, h1, h2]
      · simp [files_are_different, StatEntry.size, StatEntry.mtime, h1, h2,
          hash_file, hs, hr]
  · by_cases h1 : s.content.length ≠ r.content.length
    · simp [files_are_different, StatEntry.size, h1]
    · by_cases h2 : r.mtime < s.mtime
      · simp [files_are_different, StatEntry.size, StatEntry.mtime, h1, h2]
      · simp [files_are_different, StatEntry.size, StatEntry.mtime, h1, h2,
          hash_file, hs, hr]
  · intro s' r' h1
    simp [files_are_different, h1]
  · intro s' r' h1 h2
    simp [files_are_different, h1, h2]
  · intro h1 h2 h3
    simp [files_are_different, StatEntry.size, StatEntry.mtime, h1, h2,
      hash_file, hs, hr, md5Digest, h3]

/-- Witness for C4: two readable files of equal size and equal mtime but
different bytes are classified as different. -/
theorem c4_comparator_witness :
    (files_are_different ["f"] ["f"]
        (.file ⟨[1, 2], 5, true⟩) (.file ⟨[9, 9], 5, true⟩)).1 = true := by
  have h := c4_comparator ["f"] ["f"] ⟨[1, 2], 5, true⟩ ⟨[9, 9], 5, true⟩ rfl rfl
  exact h.2.2.2.2 rfl (by decide) (by decide)

/-- C5: when the comparator reaches the digest step (equal sizes, source
not strictly newer) and a digest computation fails, the failure is
surfaced rather than assumed away: the invocation emits exactly one
`hash_file` error record per failing file, naming the failing side and
path (two records when hashing fails for both files), so the log is
never empty; and if exactly one of the two digests fails, the pair is
classified as different. -/
theorem c5_hash_failure (sp rp : List String) (s r : FileData)
    (hsize : s.content.length = r.content.length)
    (hmtime : ¬r.mtime < s.mtime)
    (hfail : s.readable = false ∨ r.readable = false) :
    (files_are_different sp rp (.file s) (.file r)).2
      = (if s.readable then [] else [LogEvent.hashError .source sp])
        ++ (if r.readable then [] else [LogEvent.hashError .replica rp]) ∧
    (files_are_different sp rp (.file s) (.file r)).2 ≠ [] ∧
    ((files_are_different sp rp (.file s) (.file r)).2.count
        (LogEvent.hashError .source sp) = if s.readable then 0 else 1) ∧
    ((files_are_different sp rp (.file s) (.file r)).2.count
        (LogEvent.hashError .replica rp) = if r.readable then 0 else 1) ∧
    (s.readable ≠ r.readable →
      (files_are_different sp rp (.file s) (.file r)).1 = true) := by
  have h1 : ¬((StatEntry.file s).size ≠ (StatEntry.file r).size) := by
    simp [StatEntry.size, hsize]
  have heq : (files_are_different sp rp (.file s) (.file r)).2
      = (if s.readable then [] else [LogEvent.hashError .source sp])
        ++ (if r.readable then [] else [LogEvent.hashError .replica rp]) := by
    cases hsr : s.readable <;> cases hrr : r.readable <;>
      simp [files_are_different, StatEntry.size, StatEntry.mtime, hsize, hmtime,
        hash_file, hsr, hrr]
  refine ⟨heq, ?_, ?_, ?_, ?_⟩
  · rw [heq]
    rcases hfail with hf | hf <;> simp [hf]
  · rw [heq]
    cases hsr : s.readable <;> cases hrr : r.readable <;> simp
  · rw [heq]
    cases hsr : s.readable <;> cases hrr : r.readable <;> simp
  · intro hne
    cases hsr : s.readable <;> cases hrr : r.readable <;>
      first
      | (exfalso; rw [hsr, hrr] at hne; exact hne rfl)
      | simp [files_are_different, StatEntry.size, StatEntry.mtime, hsize, hmtime,
          hash_file, hsr, hrr]

/-- Witness for C5: both files unreadable - the pair is (wrongly but not
silently) classified as unchanged while both failures are logged. -/
theorem c5_hash_failure_witness :
    (files_are_different ["s"] ["s"]
        (.file ⟨[1], 3, false⟩) (.file ⟨[2], 3, false⟩)).2
      = [LogEvent.hashError .source ["s"], LogEvent.hashError .replica ["s"]] := by
  have h := c5_hash_failure ["s"] ["s"] ⟨[1], 3, false⟩ ⟨[2], 3, false⟩ rfl
    (by decide) (Or.inl rfl)
  simpa using h.1

/-- Source tree of the C7 counterexample: one readable file `f` of three
bytes. -/
def srcOneFile : FSTree := .node ⟨0, 0⟩ [("f", ⟨[1, 2, 3], 5, true⟩)] .nil

/-- Replica of the C7 counterexample: a directory named `f` (stat size
4096, as a directory on a typical filesystem) where the source has the
file `f`. -/
def repDirF : FSTree := .node ⟨0, 0⟩ [] (.cons "f" (.node ⟨4096, 9⟩ [] .nil) .nil)

/-- C7 is refuted on the code: with a replica directory sitting at the
path of a source file, the first pass succeeds (no failure is logged and
no exception is raised: the comparator sees differing sizes, the copy is
redirected by `shutil.copy2` into the directory under the source's base
name, and the pruner then deletes that copy), yet the state afterwards
equals the state before, so the second pass again performs one copy and
one remove instead of zero. -/
theorem c7_counterexample :
    (sync_folders (some srcOneFile) (some repDirF) false [] okAll).raised = false ∧
    (sync_folders (some srcOneFile) (some repDirF) false [] okAll).log
      = [LogEvent.copied ["f"] ["f"], LogEvent.removedFile ["f", "f"]] ∧
    (sync_folders (some srcOneFile)
        ((sync_folders (some srcOneFile) (some repDirF) false [] okAll).replica)
        false [] okAll).pairs = [SyncPair.mk ["f"] ["f"]] ∧
    (sync_folders (some srcOneFile)
        ((sync_folders (some srcOneFile) (some repDirF) false [] okAll).replica)
        false [] okAll).log
      = [LogEvent.copied ["f"] ["f"], LogEvent.removedFile ["f", "f"]] :=
  ⟨rfl, rfl, rfl, rfl⟩

/-- Exclusion pattern denoting the glob `a.tmp` (exact name match). -/
def patExact : GlobPattern := fun name => name = "a.tmp"

/-- Source tree of the C8 counterexample: the file `a.tmp` (still
present in the source). -/
def srcTmp : FSTree := .node ⟨0, 0⟩ [("a.tmp", ⟨[9, 9], 7, true⟩)] .nil

/-- Replica of the C8 counterexample: a previously synced (now stale)
copy of `a.tmp`. -/
def repTmp : FSTree := .node ⟨0, 0⟩ [("a.tmp", ⟨[8, 8], 2, true⟩)] .nil

/-- C8 is refuted on the code: a previously synced replica file whose
bare name matches a newly added exclusion pattern is NOT pruned while a
file at its relative path still exists in the source, because the pruner
consults only `source_file.exists()`; the pass leaves the stale replica
file exactly in place. -/
theorem c8_counterexample :
    should_exclude "a.tmp" [patExact] = true ∧
    srcTmp.find ["a.tmp"] = FindResult.file ⟨[9, 9], 7, true⟩ ∧
    (sync_folders (some srcTmp) (some repTmp) false [patExact] okAll).replica
      = some repTmp ∧
    repTmp.find ["a.tmp"] = FindResult.file ⟨[8, 8], 2, true⟩ :=
  ⟨rfl, rfl, rfl, rfl⟩

/-! The write operation underlying `shutil.copy2`, and what it does to
path resolution. -/

theorem lookupN_upsert_self {β : Type} (n : String) (b : β) :
    ∀ fs : List (String × β), lookupN n (upsert n b fs) = some b
  | [] => by simp [upsert, lookupN]
  | (m, c) :: rest => by
    by_cases h : m = n <;>
      simp [upsert, lookupN, h, lookupN_upsert_self n b rest]

theorem lookupN_upsert_ne {β : Type} (n k : String) (b : β) (h : k ≠ n) :
    ∀ fs : List (String × β), lookupN k (upsert n b fs) = lookupN k fs
  | [] => by simp [upsert, lookupN, Ne.symm h]
  | (m, c) :: rest => by
    by_cases hm : m = n
    · subst hm
      simp [upsert, lookupN, Ne.symm h]
    · by_cases hk : m = k
      · subst hk
        simp [upsert, lookupN, hm]
      · simp [upsert, lookupN, hm, hk, lookupN_upsert_ne n k b h rest]

theorem setFileAt_single (m : DirMeta) (fs : List (String × FileData)) (ds : DirList)
    (n : String) (fd : FileData) :
    setFileAt (.node m fs ds) [n] fd
      = (match ds.lookupD n with
         | some _ => none
         | none => some (.node m (upsert n fd fs) ds)) := rfl

theorem setFileAt_deep (m : DirMeta) (fs : List (String × FileData)) (ds : DirList)
    (n : String) (rest : List String) (h : rest ≠ []) (fd : FileData) :
    setFileAt (.node m fs ds) (n :: rest) fd
      = (match ds.lookupD n with
         | some sub =>
           (match setFileAt sub rest fd with
            | some sub' => some (.node m fs (ds.upsertD n sub'))
            | none => none)
         | none => none) := by
  cases rest with
  | nil => exact absurd rfl h
  | cons a b => rfl

theorem setFileAt_find_self : ∀ (π : List String) (r r' : FSTree) (fd : FileData),
    setFileAt r π fd = some r' → r'.find π = .file fd := by
  intro π
  induction π with
  | nil => intro r r' fd h; simp [setFileAt] at h
  | cons n rest ih =>
    intro r r' fd h
    cases r with
    | node m fs ds =>
      by_cases hne : rest = []
      · subst hne
        rw [setFileAt_single] at h
        cases hd : ds.lookupD n with
        | some _ => rw [hd] at h; cases h
        | none =>
          rw [hd] at h
          have hr' : r' = .node m (upsert n fd fs) ds := by
            injection h with h'
            exact h'.symm
          subst hr'
          rw [find_cons]
          simp [FSTree.dirs, FSTree.files, hd, lookupN_upsert_self]
      · rw [setFileAt_deep m fs ds n rest hne] at h
        cases hd : ds.lookupD n with
        | none => rw [hd] at h; cases h
        | some sub =>
          simp only [hd] at h
          cases hset : setFileAt sub rest fd with
          | none => rw [hset] at h; cases h
          | some sub' =>
            rw [hset] at h
            have hr' : r' = .node m fs (ds.upsertD n sub') := by
              injection h with h'
              exact h'.symm
            subst hr'
            rw [find_cons]
            simp only [FSTree.dirs, lookupD_upsertD_self]
            exact ih sub sub' fd hset

theorem setFileAt_not_dir : ∀ (π : List String) (r r' : FSTree) (fd : FileData),
    setFileAt r π fd = some r' →
    (match r.find π with | FindResult.dir _ => False | _ => True) := by
  intro π
  induction π with
  | nil => intro r r' fd h; simp [setFileAt] at h
  | cons n rest ih =>
    intro r r' fd h
    cases r with
    | node m fs ds =>
      by_cases hne : rest = []
      · subst hne
        rw [setFileAt_single] at h
        cases hd : ds.lookupD n with
        | some _ => rw [hd] at h; cases h
        | none =>
          rw [find_cons]
          simp only [FSTree.dirs, FSTree.files, hd]
          cases hfl : lookupN n fs <;> simp
      · rw [setFileAt_deep m fs ds n rest hne] at h
        cases hd : ds.lookupD n with
        | none => rw [hd] at h; cases h
        | some sub =>
          simp only [hd] at h
          cases hset : setFileAt sub rest fd with
          | none => rw [hset] at h; cases h
          | some sub' =>
            rw [find_cons]
            simp only [FSTree.dirs, hd]
            exact ih sub sub' fd hset

/-- Two resolution results agree as filesystem entries: both absent,
the same regular file, or both directories (whose subtrees may have
been updated below). -/
def sameEntry : FindResult → FindResult → Prop
  | .missing, .missing => True
  | .file fd, .file fd' => fd = fd'
  | .dir _, .dir _ => True
  | _, _ => False

theorem sameEntry_rfl : ∀ x : FindResult, sameEntry x x
  | .missing => trivial
  | .file _ => rfl
  | .dir _ => trivial

theorem sameEntry_trans : ∀ {x y z : FindResult},
    sameEntry x y → sameEntry y z → sameEntry x z := by
  intro x y z h1 h2
  cases x <;> cases y <;> cases z <;> simp [sameEntry] at * <;> simp [h1, h2]

theorem sameEntry_of_eq {x y : FindResult} (h : x = y) : sameEntry x y := by
  subst h; exact sameEntry_rfl x

theorem setFileAt_find_other : ∀ (π : List String) (r r' : FSTree) (fd : FileData)
    (q : List String), setFileAt r π fd = some r' → q ≠ π →
    sameEntry (r.find q) (r'.find q) := by
  intro π
  induction π with
  | nil => intro r r' fd q h; simp [setFileAt] at h
  | cons n rest ih =>
    intro r r' fd q h hq
    cases r with
    | node m fs ds =>
      by_cases hne : rest = []
      · subst hne
        rw [setFileAt_single] at h
        cases hd : ds.lookupD n with
        | some _ => rw [hd] at h; cases h
        | none =>
          rw [hd] at h
          have hr' : r' = .node m (upsert n fd fs) ds := by
            injection h with h'
            exact h'.symm
          subst hr'
          cases q with
          | nil => simp [FSTree.find, sameEntry]
          | cons k qrest =>
            rw [find_cons, find_cons]
            simp only [FSTree.dirs, FSTree.files]
            by_cases hk : k = n
            · subst hk
              have hqrest : qrest ≠ [] := by
                intro hqe
                exact hq (by rw [hqe])
              rw [hd]
              cases qrest with
              | nil => exact absurd rfl hqrest
              | cons a b => exact trivial
            · cases hdk : ds.lookupD k with
              | some tk => exact sameEntry_rfl _
              | none =>
                rw [lookupN_upsert_ne n k fd hk fs]
                cases qrest with
                | nil => cases lookupN k fs <;> simp [sameEntry]
                | cons a b => exact trivial
      · rw [setFileAt_deep m fs ds n rest hne] at h
        cases hd : ds.lookupD n with
        | none => rw [hd] at h; cases h
        | some sub =>
          simp only [hd] at h
          cases hset : setFileAt sub rest fd with
          | none => rw [hset] at h; cases h
          | some sub' =>
            rw [hset] at h
            have hr' : r' = .node m fs (ds.upsertD n sub') := by
              injection h with h'
              exact h'.symm
            subst hr'
            cases q with
            | nil => simp [FSTree.find, sameEntry]
            | cons k qrest =>
              rw [find_cons, find_cons]
              simp only [FSTree.dirs, FSTree.files]
              by_cases hk : k = n
              · subst hk
                rw [hd, lookupD_upsertD_self]
                have hqrest : qrest ≠ rest := by
                  intro hqe
                  exact hq (by rw [hqe])
                exact ih sub sub' fd qrest hset hqrest
              · rw [lookupD_upsertD_ne ds n k sub' hk]
                cases hdk : ds.lookupD k with
                | some tk => exact sameEntry_rfl _
                | none =>
                  cases qrest with
                  | nil => cases lookupN k fs <;> simp [sameEntry]
                  | cons a b => exact trivial

theorem setFileAt_succeeds : ∀ (q : List String) (n : String) (r : FSTree)
    (fd : FileData) (tq : FSTree), r.find q = .dir tq →
    (match r.find (q ++ [n]) with | FindResult.dir _ => False | _ => True) →
    ∃ r', setFileAt r (q ++ [n]) fd = some r' := by
  intro q
  induction q with
  | nil =>
    intro n r fd tq hdir hnd
    cases r with
    | node m fs ds =>
      rw [List.nil_append]
      rw [setFileAt_single]
      cases hd : ds.lookupD n with
      | some sub =>
        exfalso
        rw [List.nil_append, find_cons] at hnd
        simp only [FSTree.dirs, hd] at hnd
        simp [FSTree.find] at hnd
      | none => exact ⟨_, rfl⟩
  | cons k q' ih =>
    intro n r fd tq hdir hnd
    cases r with
    | node m fs ds =>
      rw [List.cons_append]
      have hne : q' ++ [n] ≠ [] := by simp
      rw [setFileAt_deep m fs ds k (q' ++ [n]) hne]
      rw [find_cons] at hdir
      simp only [FSTree.dirs, FSTree.files] at hdir
      cases hd : ds.lookupD k with
      | none =>
        rw [hd] at hdir
        cases q' with
        | nil => cases hfl : lookupN k fs <;> rw [hfl] at hdir <;> cases hdir
        | cons a b => cases hdir
      | some sub =>
        simp only [hd] at hdir ⊢
        have hnd' : (match sub.find (q' ++ [n]) with
            | FindResult.dir _ => False | _ => True) := by
          rw [List.cons_append, find_cons] at hnd
          simp only [FSTree.dirs, hd] at hnd
          exact hnd
        obtain ⟨sub', hsub'⟩ := ih n sub fd tq hdir hnd'
        rw [hsub']
        exact ⟨_, rfl⟩

theorem copy_real_log (srcT : Option FSTree) (copyOk : SyncPair → Bool)
    (rep : Option FSTree) (pr : SyncPair) :
    (copy_or_update_file false srcT copyOk rep pr).2
        = [LogEvent.copied pr.sourcePath pr.replicaPath]
    ∨ (copy_or_update_file false srcT copyOk rep pr).2
        = [LogEvent.copyFailed pr.sourcePath pr.replicaPath] := by
  cases rep with
  | none => right; simp [copy_or_update_file]
  | some r =>
    cases srcT with
    | none => right; simp [copy_or_update_file]
    | some st =>
      simp only [copy_or_update_file]
      cases hf : st.find pr.sourcePath with
      | file sfd =>
        by_cases hok : (copyOk pr && sfd.readable) = true
        · simp only [hok, Bool.false_eq_true, if_true, if_false]
          cases hset : setFileAt r (match r.find pr.replicaPath with
            | .dir _ => pr.replicaPath ++ [pr.sourcePath.getLastD ""]
            | _ => pr.replicaPath) ⟨sfd.content, sfd.mtime, true⟩ with
          | some r' => left; simp [hset]
          | none => right; simp [hset]
        · right; simp [hok]
      | missing => right; simp
      | dir t' => right; simp

theorem applyPairs_events (srcT : Option FSTree) (copyOk : SyncPair → Bool) :
    ∀ (prs : List SyncPair) (rep : Option FSTree),
    List.Forall₂ (fun (pr : SyncPair) (e : LogEvent) =>
        e = LogEvent.copied pr.sourcePath pr.replicaPath ∨
        e = LogEvent.copyFailed pr.sourcePath pr.replicaPath)
      prs (applyPairs false srcT copyOk rep prs).2 := by
  intro prs
  induction prs with
  | nil => intro rep; simp [applyPairs]
  | cons pr rest ih =>
    intro rep
    have hs := copy_real_log srcT copyOk rep pr
    rcases hs with hs | hs <;>
    · simp only [applyPairs, hs, List.singleton_append]
      exact List.Forall₂.cons (by simp [hs]) (ih _)

theorem copy_real_failed_of_notok (srcT : Option FSTree) (copyOk : SyncPair → Bool)
    (rep : Option FSTree) (pr : SyncPair) (h : copyOk pr = false) :
    copy_or_update_file false srcT copyOk rep pr
      = (rep, [LogEvent.copyFailed pr.sourcePath pr.replicaPath]) := by
  cases rep with
  | none => simp [copy_or_update_file]
  | some r =>
    cases srcT with
    | none => simp [copy_or_update_file]
    | some st =>
      simp only [copy_or_update_file]
      cases hf : st.find pr.sourcePath with
      | file sfd => simp [h]
      | missing => simp
      | dir t' => simp

theorem applyPairs_mem_const_step (srcT : Option FSTree) (copyOk : SyncPair → Bool)
    (pr : SyncPair) (evt : LogEvent)
    (hstep : ∀ rep', (copy_or_update_file false srcT copyOk rep' pr).2 = [evt]) :
    ∀ (prs : List SyncPair) (rep : Option FSTree), pr ∈ prs →
      evt ∈ (applyPairs false srcT copyOk rep prs).2 := by
  intro prs
  induction prs with
  | nil => intro rep h; cases h
  | cons pr0 rest ih =>
    intro rep h
    rcases List.mem_cons.mp h with rfl | h
    · simp only [applyPairs, hstep rep]
      simp
    · simp only [applyPairs, List.mem_append]
      right
      exact ih _ h

theorem copy_real_success (st : FSTree) (copyOk : SyncPair → Bool) (r : FSTree)
    (pr : SyncPair) (q : List String) (n : String) (sfd : FileData)
    (hπ : pr.replicaPath = q ++ [n])
    (hsrc : st.find pr.sourcePath = FindResult.file sfd)
    (hok : copyOk pr = true) (hread : sfd.readable = true)
    (hparent : ∃ tq, r.find q = FindResult.dir tq)
    (hnotdir : (match r.find (q ++ [n]) with
      | FindResult.dir _ => False | _ => True)) :
    ∃ r', copy_or_update_file false (some st) copyOk (some r) pr
        = (some r', [LogEvent.copied pr.sourcePath pr.replicaPath]) ∧
      r'.find (q ++ [n]) = FindResult.file ⟨sfd.content, sfd.mtime, true⟩ ∧
      (∀ p', p' ≠ q ++ [n] → sameEntry (r.find p') (r'.find p')) := by
  obtain ⟨tq, htq⟩ := hparent
  obtain ⟨r', hr'⟩ := setFileAt_succeeds q n r ⟨sfd.content, sfd.mtime, true⟩ tq htq hnotdir
  have hcond : (copyOk pr && sfd.readable) = true := by rw [hok, hread]; rfl
  refine ⟨r', ?_, setFileAt_find_self _ r r' _ hr',
    fun p' hp' => setFileAt_find_other _ r r' _ p' hr' hp'⟩
  simp only [copy_or_update_file, hsrc, hcond, if_true]
  rw [hπ]
  cases hfind : r.find (q ++ [n]) with
  | dir t => rw [hfind] at hnotdir; exact absurd hnotdir (by simp)
  | file fd => simp [hr']
  | missing => simp [hr']

theorem copy_real_step_char (st : FSTree) (copyOk : SyncPair → Bool) (r0 : FSTree)
    (pr : SyncPair)
    (hnd : (match r0.find pr.replicaPath with
      | FindResult.dir _ => False | _ => True)) :
    ∃ r1, (copy_or_update_file false (some st) copyOk (some r0) pr).1 = some r1 ∧
      (∀ p', p' ≠ pr.replicaPath → sameEntry (r0.find p') (r1.find p')) ∧
      (match r1.find pr.replicaPath with
        | FindResult.dir _ => False | _ => True) := by
  simp only [copy_or_update_file]
  cases hf : st.find pr.sourcePath with
  | missing => exact ⟨r0, by simp, fun p' _ => sameEntry_rfl _, hnd⟩
  | dir t' => exact ⟨r0, by simp, fun p' _ => sameEntry_rfl _, hnd⟩
  | file sfd =>
    by_cases hok : (copyOk pr && sfd.readable) = true
    · simp only [hok, if_true, Bool.false_eq_true, if_false]
      have htarget : (match r0.find pr.replicaPath with
          | FindResult.dir _ => pr.replicaPath ++ [pr.sourcePath.getLastD ""]
          | _ => pr.replicaPath) = pr.replicaPath := by
        cases hfind : r0.find pr.replicaPath with
        | dir t => rw [hfind] at hnd; exact absurd hnd (by simp)
        | file fd => rfl
        | missing => rfl
      rw [htarget]
      cases hset : setFileAt r0 pr.replicaPath ⟨sfd.content, sfd.mtime, true⟩ with
      | some r1 =>
        refine ⟨r1, by simp, fun p' hp' => setFileAt_find_other _ r0 r1 _ p' hset hp', ?_⟩
        rw [setFileAt_find_self _ r0 r1 _ hset]
        simp
      | none => exact ⟨r0, by simp, fun p' _ => sameEntry_rfl _, hnd⟩
    · simp only [hok, Bool.false_eq_true, if_false]
      exact ⟨r0, by simp, fun p' _ => sameEntry_rfl _, hnd⟩

theorem sameEntry_dir : ∀ {x y : FindResult}, sameEntry x y →
    ∀ t, x = FindResult.dir t → ∃ t', y = FindResult.dir t' := by
  intro x y h t hx
  subst hx
  cases y with
  | dir t' => exact ⟨t', rfl⟩
  | file fd => simp [sameEntry] at h
  | missing => simp [sameEntry] at h

theorem sameEntry_file : ∀ {x y : FindResult}, sameEntry x y →
    ∀ fd, x = FindResult.file fd → y = FindResult.file fd := by
  intro x y h fd hx
  subst hx
  cases y with
  | dir t' => simp [sameEntry] at h
  | file fd' =>
    have hfd : fd = fd' := by simpa [sameEntry] using h
    rw [hfd]
  | missing => simp [sameEntry] at h

theorem sameEntry_missing : ∀ {x y : FindResult}, sameEntry x y →
    x = FindResult.missing → y = FindResult.missing := by
  intro x y h hx
  subst hx
  cases y with
  | dir t' => simp [sameEntry] at h
  | file fd' => simp [sameEntry] at h
  | missing => rfl

theorem sameEntry_not_dir : ∀ {x y : FindResult}, sameEntry x y →
    (match x with | FindResult.dir _ => False | _ => True) →
    (match y with | FindResult.dir _ => False | _ => True) := by
  intro x y h hx
  cases x <;> cases y <;> simp [sameEntry] at h ⊢ <;> try exact hx

theorem ne_append_singleton (q : List String) (n : String) : q ≠ q ++ [n] := by
  intro h
  have : q.length = (q ++ [n]).length := by rw [← h]
  simp at this

theorem applyPairs_master (st : FSTree) (copyOk : SyncPair → Bool) :
    ∀ (prs : List SyncPair) (r0 : FSTree),
    (∀ pr ∈ prs, (match r0.find pr.replicaPath with
      | FindResult.dir _ => False | _ => True)) →
    ∃ rN, (applyPairs false (some st) copyOk (some r0) prs).1 = some rN ∧
      (∀ p', (∀ pr ∈ prs, pr.replicaPath ≠ p') →
        sameEntry (r0.find p') (rN.find p')) ∧
      (∀ pr ∈ prs, ∀ q n sfd, pr.replicaPath = q ++ [n] →
        st.find pr.sourcePath = FindResult.file sfd →
        copyOk pr = true → sfd.readable = true →
        (∃ tq, r0.find q = FindResult.dir tq) →
        (∀ pr' ∈ prs, pr'.replicaPath = pr.replicaPath → pr' = pr) →
        rN.find (q ++ [n]) = FindResult.file ⟨sfd.content, sfd.mtime, true⟩ ∧
        LogEvent.copied pr.sourcePath pr.replicaPath
          ∈ (applyPairs false (some st) copyOk (some r0) prs).2) := by
  intro prs
  induction prs with
  | nil =>
    intro r0 _
    refine ⟨r0, by simp [applyPairs], fun p' _ => sameEntry_rfl _, ?_⟩
    intro pr hpr
    cases hpr
  | cons pr0 rest ih =>
    intro r0 hnd
    obtain ⟨r1, hr1, huntouched1, hnd1self⟩ :=
      copy_real_step_char st copyOk r0 pr0 (hnd pr0 (List.mem_cons_self _ _))
    have hnd1 : ∀ pr ∈ rest, (match r1.find pr.replicaPath with
        | FindResult.dir _ => False | _ => True) := by
      intro pr hpr
      by_cases hp : pr.replicaPath = pr0.replicaPath
      · rw [hp]; exact hnd1self
      · exact sameEntry_not_dir (huntouched1 pr.replicaPath hp)
          (hnd pr (List.mem_cons_of_mem _ hpr))
    obtain ⟨rN, hrN, huntouchedN, hokN⟩ := ih r1 hnd1
    have happly : (applyPairs false (some st) copyOk (some r0) (pr0 :: rest)).1
        = (applyPairs false (some st) copyOk (some r1) rest).1 := by
      simp only [applyPairs, hr1]
    have happlyLog : (applyPairs false (some st) copyOk (some r0) (pr0 :: rest)).2
        = (copy_or_update_file false (some st) copyOk (some r0) pr0).2
          ++ (applyPairs false (some st) copyOk (some r1) rest).2 := by
      simp only [applyPairs, hr1]
    refine ⟨rN, by rw [happly]; exact hrN, ?_, ?_⟩
    · intro p' hp'
      have h1 := huntouched1 p' (Ne.symm (hp' pr0 (List.mem_cons_self _ _)))
      have h2 := huntouchedN p' (fun pr hpr => hp' pr (List.mem_cons_of_mem _ hpr))
      exact sameEntry_trans h1 h2
    · intro pr hpr q n sfd hπ hsrc hok hread hparent huniq
      have huniqrest : ∀ pr'' ∈ rest, pr''.replicaPath = pr.replicaPath → pr'' = pr :=
        fun pr'' hpr'' hpath'' => huniq pr'' (List.mem_cons_of_mem _ hpr'') hpath''
      rcases List.mem_cons.mp hpr with heq | hmem
      · subst heq
        obtain ⟨r1', hstep', hfile', huntouched'⟩ :=
          copy_real_success st copyOk r0 pr q n sfd hπ hsrc hok hread hparent
            (by rw [← hπ]; exact hnd pr (List.mem_cons_self _ _))
        have hr1eq : r1 = r1' := by
          have hs1 : (copy_or_update_file false (some st) copyOk (some r0) pr).1
              = some r1' := by rw [hstep']
          rw [hs1] at hr1
          injection hr1 with h'
          exact h'.symm
        subst hr1eq
        have hmemlog : LogEvent.copied pr.sourcePath pr.replicaPath
            ∈ (applyPairs false (some st) copyOk (some r0) (pr :: rest)).2 := by
          rw [happlyLog, hstep']
          simp
        refine ⟨?_, hmemlog⟩
        by_cases hin : ∃ pr' ∈ rest, pr'.replicaPath = pr.replicaPath
        · obtain ⟨pr', hpr', hpath⟩ := hin
          have hpr'eq : pr' = pr := huniq pr' (List.mem_cons_of_mem _ hpr') hpath
          subst hpr'eq
          have hparent1 : ∃ tq, r1.find q = FindResult.dir tq := by
            obtain ⟨tq, htq⟩ := hparent
            exact sameEntry_dir (huntouched' q (ne_append_singleton q n)) tq htq
          exact (hokN pr' hpr' q n sfd hπ hsrc hok hread hparent1 huniqrest).1
        · push_neg at hin
          have hse := huntouchedN (q ++ [n]) (by
            intro pr' hpr'
            rw [← hπ]
            exact hin pr' hpr')
          exact sameEntry_file hse _ hfile'
      · have hqne : q ≠ pr0.replicaPath := by
          intro hqeq
          obtain ⟨tq, htq⟩ := hparent
          have := hnd pr0 (List.mem_cons_self _ _)
          rw [← hqeq, htq] at this
          exact this
        have hparent1 : ∃ tq, r1.find q = FindResult.dir tq := by
          obtain ⟨tq, htq⟩ := hparent
          exact sameEntry_dir (huntouched1 q hqne) tq htq
        have hres := hokN pr hmem q n sfd hπ hsrc hok hread hparent1 huniqrest
        refine ⟨hres.1, ?_⟩
        rw [happlyLog]
        exact List.mem_append_right _ hres.2

/-- C6: in a non-dry-run pass, every pending pair is attempted
independently and yields exactly one log record naming both of its paths
(`Copied` on success, `Failed to copy` on failure), in list order; a
pair whose copy the environment refuses is logged as failed with its
source and target paths, and it does not abort the rest: every other
pair whose own copy succeeds (its oracle allows it, its source is a
readable file, its target's parent directory exists, its target is not a
directory, and no other pending pair writes the same target) is still
attempted and copied - the final replica holds the source's content and
metadata at its target and its `Copied` record is in the log. -/
theorem c6_failure_isolation (st : FSTree) (copyOk : SyncPair → Bool)
    (prs : List SyncPair) (r0 : FSTree)
    (hnd : ∀ pr ∈ prs, (match r0.find pr.replicaPath with
      | FindResult.dir _ => False | _ => True)) :
    List.Forall₂ (fun (pr : SyncPair) (e : LogEvent) =>
        e = LogEvent.copied pr.sourcePath pr.replicaPath ∨
        e = LogEvent.copyFailed pr.sourcePath pr.replicaPath)
      prs (applyPairs false (some st) copyOk (some r0) prs).2 ∧
    (∀ pr ∈ prs, copyOk pr = false →
      LogEvent.copyFailed pr.sourcePath pr.replicaPath
        ∈ (applyPairs false (some st) copyOk (some r0) prs).2) ∧
    (∀ pr ∈ prs, ∀ q n sfd, pr.replicaPath = q ++ [n] →
      st.find pr.sourcePath = FindResult.file sfd →
      copyOk pr = true → sfd.readable = true →
      (∃ tq, r0.find q = FindResult.dir tq) →
      (∀ pr' ∈ prs, pr'.replicaPath = pr.replicaPath → pr' = pr) →
      ∃ rN, (applyPairs false (some st) copyOk (some r0) prs).1 = some rN ∧
        rN.find (q ++ [n]) = FindResult.file ⟨sfd.content, sfd.mtime, true⟩ ∧
        LogEvent.copied pr.sourcePath pr.replicaPath
          ∈ (applyPairs false (some st) copyOk (some r0) prs).2) := by
  refine ⟨applyPairs_events (some st) copyOk prs (some r0), ?_, ?_⟩
  · intro pr hpr hnok
    exact applyPairs_mem_const_step (some st) copyOk pr _
      (fun rep' => by rw [copy_real_failed_of_notok (some st) copyOk rep' pr hnok])
      prs (some r0) hpr
  · intro pr hpr q n sfd hπ hsrc hok hread hparent huniq
    obtain ⟨rN, h1, _, h3⟩ := applyPairs_master st copyOk prs r0 hnd
    obtain ⟨hfile, hmem⟩ := h3 pr hpr q n sfd hπ hsrc hok hread hparent huniq
    exact ⟨rN, h1, hfile, hmem⟩

/-- Source tree for the C6 witness: files `a` and `b`. -/
def srcAB : FSTree := .node ⟨0, 0⟩ [("a", ⟨[5], 2, true⟩), ("b", ⟨[7, 7], 3, true⟩)] .nil

/-- Copy oracle for the C6 witness: the environment refuses the copy
whose target is `a` (a non-writable target). -/
def okButA : SyncPair → Bool := fun pr => decide (pr.replicaPath ≠ ["a"])

/-- Witness for C6 at a concrete input: with two pending pairs of which
the first fails, the failure is logged with both paths and the second
pair still copies successfully. -/
theorem c6_failure_isolation_witness :
    LogEvent.copyFailed ["a"] ["a"]
      ∈ (applyPairs false (some srcAB) okButA (some emptyDir)
          [⟨["a"], ["a"]⟩, ⟨["b"], ["b"]⟩]).2 ∧
    ∃ rN, (applyPairs false (some srcAB) okButA (some emptyDir)
          [⟨["a"], ["a"]⟩, ⟨["b"], ["b"]⟩]).1 = some rN ∧
      rN.find ["b"] = FindResult.file ⟨[7, 7], 3, true⟩ ∧
      LogEvent.copied ["b"] ["b"]
        ∈ (applyPairs false (some srcAB) okButA (some emptyDir)
            [⟨["a"], ["a"]⟩, ⟨["b"], ["b"]⟩]).2 := by
  have hnd : ∀ pr ∈ [SyncPair.mk ["a"] ["a"], SyncPair.mk ["b"] ["b"]],
      (match emptyDir.find pr.replicaPath with
        | FindResult.dir _ => False | _ => True) := by
    intro pr hpr
    rcases List.mem_cons.mp hpr with rfl | hpr
    · exact trivial
    · rcases List.mem_cons.mp hpr with rfl | hpr
      · exact trivial
      · cases hpr
  have h := c6_failure_isolation srcAB okButA
    [⟨["a"], ["a"]⟩, ⟨["b"], ["b"]⟩] emptyDir hnd
  refine ⟨h.2.1 ⟨["a"], ["a"]⟩ (by simp) (by decide), ?_⟩
  exact h.2.2 ⟨["b"], ["b"]⟩ (by simp) [] "b" ⟨[7, 7], 3, true⟩ rfl rfl (by decide)
    rfl ⟨emptyDir, rfl⟩ (by decide)

/-! Well-formedness (unique names per directory) and absence of
file/directory type conflicts between the two trees, plus the
characterization of a real (non-dry) scan. -/

/-- The names bound in a subdirectory listing. -/
def DirList.names : DirList → List String
  | .nil => []
  | .cons n _ rest => n :: rest.names

/-- Resolution of a non-empty path against a forest of named subtrees. -/
def DirList.findD : DirList → List String → FindResult
  | _, [] => .missing
  | ds, k :: q =>
    match ds.lookupD k with
    | some t => t.find q
    | none => .missing

/-- Boolean duplicate-freedom of a list of names. -/
def nodupB : List String → Bool
  | [] => true
  | a :: l => !(l.contains a) && nodupB l

mutual

/-- A tree is well formed when every directory level binds each name at
most once (across files and subdirectories together), recursively - as
is the case for a listing of a real filesystem directory. -/
def FSTree.wfb : FSTree → Bool
  | .node _ fs ds => nodupB (fs.map Prod.fst ++ ds.names) && wfbD ds

/-- Companion of `FSTree.wfb` for subdirectory listings. -/
def wfbD : DirList → Bool
  | .nil => true
  | .cons _ t rest => t.wfb && wfbD rest

end

mutual

/-- No path is a directory in the source and a regular file in the
replica, or a regular file in the source and a directory in the
replica (checked over the source's entries, the only relevant ones). -/
def confFree : FSTree → FSTree → Bool
  | .node _ fs ds, r =>
    fs.all (fun e => (r.dirs.lookupD e.1).isNone) && confDirs ds r

/-- Companion of `confFree` for the source's subdirectory listing. -/
def confDirs : DirList → FSTree → Bool
  | .nil, _ => true
  | .cons n t rest, r =>
    (lookupN n r.files).isNone &&
    (match r.dirs.lookupD n with
     | some rt => confFree t rt
     | none => true) &&
    confDirs rest r

end

theorem names_of_lookupD : ∀ (ds : DirList) (k : String) (t : FSTree),
    ds.lookupD k = some t → k ∈ ds.names
  | .nil, k, t => by intro h; simp [DirList.lookupD] at h
  | .cons n u rest, k, t => by
    intro h
    by_cases hn : n = k
    · simp [DirList.names, hn]
    · have h' : rest.lookupD k = some t := by simpa [DirList.lookupD, hn] using h
      simp [DirList.names]
      right
      exact names_of_lookupD rest k t h'

theorem lookupD_eq_none_of_not_mem : ∀ (ds : DirList) (k : String),
    k ∉ ds.names → ds.lookupD k = none
  | .nil, k => by intro _; rfl
  | .cons n u rest, k => by
    intro h
    simp [DirList.names] at h
    simp [DirList.lookupD, Ne.symm h.1, lookupD_eq_none_of_not_mem rest k h.2]

theorem lookupN_eq_none_of_not_mem {β : Type} : ∀ (fs : List (String × β)) (k : String),
    k ∉ fs.map Prod.fst → lookupN k fs = none
  | [], k => by intro _; rfl
  | (n, b) :: rest, k => by
    intro h
    simp only [List.map_cons, List.mem_cons] at h
    push_neg at h
    simp [lookupN, Ne.symm h.1, lookupN_eq_none_of_not_mem rest k h.2]

theorem nodupB_cons (a : String) (l : List String) (h : nodupB (a :: l) = true) :
    a ∉ l ∧ nodupB l = true := by
  simp [nodupB] at h
  exact ⟨by simpa using h.1, h.2⟩

theorem nodupB_append_right : ∀ (A B : List String), nodupB (A ++ B) = true →
    nodupB B = true
  | [], B => by intro h; simpa using h
  | a :: A, B => by
    intro h
    exact nodupB_append_right A B (nodupB_cons a (A ++ B) (by simpa using h)).2

theorem nodupB_disjoint : ∀ (A B : List String) (k : String), nodupB (A ++ B) = true →
    k ∈ A → k ∉ B
  | [], B, k => by intro _ hk; cases hk
  | a :: A, B, k => by
    intro h hk
    have hc := nodupB_cons a (A ++ B) (by simpa using h)
    rcases List.mem_cons.mp hk with rfl | hk
    · intro hB
      exact hc.1 (List.mem_append_right A hB)
    · exact nodupB_disjoint A B k hc.2 hk

theorem confDirs_lookup : ∀ (ds : DirList) (r : FSTree) (k : String) (t : FSTree),
    confDirs ds r = true → ds.lookupD k = some t →
    lookupN k r.files = none ∧
      ∀ rt, r.dirs.lookupD k = some rt → confFree t rt = true
  | .nil, r, k, t => by intro _ h; simp [DirList.lookupD] at h
  | .cons n u rest, r, k, t => by
    intro hc h
    simp only [confDirs, Bool.and_eq_true] at hc
    by_cases hn : n = k
    · subst hn
      have hu : u = t := by simpa [DirList.lookupD] using h
      subst hu
      refine ⟨by simpa [Option.isNone_iff_eq_none] using hc.1.1, ?_⟩
      intro rt hrt
      have := hc.1.2
      rw [hrt] at this
      exact this
    · have h' : rest.lookupD k = some t := by simpa [DirList.lookupD, hn] using h
      exact confDirs_lookup rest r k t hc.2 h'

theorem confDirs_empty : ∀ ds : DirList, confDirs ds emptyDir = true
  | .nil => rfl
  | .cons n t rest => by
    simp only [confDirs, Bool.and_eq_true]
    exact ⟨⟨by simp [emptyDir, FSTree.files, lookupN],
      by simp [emptyDir, FSTree.dirs, DirList.lookupD]⟩, confDirs_empty rest⟩

theorem confFree_empty : ∀ s : FSTree, confFree s emptyDir = true := by
  intro s
  cases s with
  | node m fs ds =>
    simp only [confFree, Bool.and_eq_true]
    exact ⟨by simp [List.all_eq_true, emptyDir, FSTree.dirs, DirList.lookupD],
      confDirs_empty ds⟩

theorem emptyDir_find_ne : ∀ q : List String, q ≠ [] → emptyDir.find q = .missing := by
  intro q hq
  cases q with
  | nil => exact absurd rfl hq
  | cons k tail =>
    rw [find_cons]
    simp [emptyDir, FSTree.dirs, FSTree.files, DirList.lookupD, lookupN]
    cases tail <;> simp

theorem expFiles_congr (excl : List GlobPattern) (p : List String)
    (ρ ρ' : List String → FindResult) (h : ∀ q, q ≠ [] → ρ q = ρ' q) :
    ∀ fs, expFiles excl p ρ fs = expFiles excl p ρ' fs
  | [] => rfl
  | (n, fd) :: rest => by
    have hr := expFiles_congr excl p ρ ρ' h rest
    have hn : ρ [n] = ρ' [n] := h [n] (by simp)
    simp only [expFiles, hr, hn]

mutual

theorem expPairsT_congr : ∀ (excl : List GlobPattern) (p : List String)
    (ρ ρ' : List String → FindResult) (s : FSTree),
    (∀ q, q ≠ [] → ρ q = ρ' q) →
    expPairsT excl p ρ s = expPairsT excl p ρ' s
  | excl, p, ρ, ρ', .node m fs ds => by
    intro h
    simp only [expPairsT, expFiles_congr excl p ρ ρ' h fs,
      expPairsD_congr excl p ρ ρ' ds h]

theorem expPairsD_congr : ∀ (excl : List GlobPattern) (p : List String)
    (ρ ρ' : List String → FindResult) (ds : DirList),
    (∀ q, q ≠ [] → ρ q = ρ' q) →
    expPairsD excl p ρ ds = expPairsD excl p ρ' ds
  | _, _, _, _, .nil => by intro _; rfl
  | excl, p, ρ, ρ', .cons n t rest => by
    intro h
    have hc := expPairsT_congr excl (p ++ [n]) (fun q => ρ (n :: q))
      (fun q => ρ' (n :: q)) t (fun q _ => h (n :: q) (by simp))
    have hr := expPairsD_congr excl p ρ ρ' rest h
    simp only [expPairsD, hc, hr]

end

theorem expPairsD_congr_names : ∀ (excl : List GlobPattern) (p : List String)
    (ρ ρ' : List String → FindResult) (ds : DirList),
    (∀ k q, (ds.lookupD k).isSome = true → ρ (k :: q) = ρ' (k :: q)) →
    expPairsD excl p ρ ds = expPairsD excl p ρ' ds
  | _, _, _, _, .nil => by intro _; rfl
  | excl, p, ρ, ρ', .cons n t rest => by
    intro h
    have hchild : (fun q => ρ (n :: q)) = (fun q => ρ' (n :: q)) :=
      funext fun q => h n q (by simp [DirList.lookupD])
    have hrest : expPairsD excl p ρ rest = expPairsD excl p ρ' rest := by
      refine expPairsD_congr_names excl p ρ ρ' rest (fun k q hk => h k q ?_)
      by_cases hkn : n = k
      · simp [DirList.lookupD, hkn]
      · simpa [DirList.lookupD, hkn] using hk
    simp only [expPairsD, hchild, hrest]

/-- In a real pass, the walk of a source directory whose replica is
absent behaves, apart from the creation log line, exactly like the walk
against an already-present empty replica directory. -/
theorem scanTree_missing_real (excl : List GlobPattern) (p : List String) (s : FSTree) :
    (scanTree excl false p s .missing).loc
        = (scanTree excl false p s (.dir emptyDir)).loc ∧
      (scanTree excl false p s .missing).pairs
        = (scanTree excl false p s (.dir emptyDir)).pairs ∧
      (scanTree excl false p s .missing).aborted
        = (scanTree excl false p s (.dir emptyDir)).aborted := by
  cases s with
  | node m fs ds => simp [scanTree, RepLoc.isBlocked, RepLoc.isMissing]

/-- Updating one subdirectory binding leaves resolution of paths headed
by a different name unchanged. -/
theorem find_upsertD_ne (m : DirMeta) (fs : List (String × FileData)) (ds : DirList)
    (n : String) (ct : FSTree) (k : String) (tail : List String) (hk : k ≠ n) :
    (FSTree.node m fs (ds.upsertD n ct)).find (k :: tail)
      = (FSTree.node m fs ds).find (k :: tail) := by
  rw [find_cons, find_cons]
  simp only [FSTree.dirs, FSTree.files]
  rw [lookupD_upsertD_ne ds n k ct hk]

mutual

/-- Real-pass walk of a well-formed source directory against a
conflict-free replica state: nothing aborts, the walk returns a replica
tree whose own files are untouched, in which every source directory
path exists as a directory, every path that is not a source directory
resolves as before the walk, and whose pending pairs are exactly the
expected ones against the pre-walk replica. -/
theorem scanTree_char : ∀ (excl : List GlobPattern) (p : List String)
    (s : FSTree) (r : FSTree),
    s.wfb = true → confFree s r = true →
    (scanTree excl false p s (.dir r)).aborted = false ∧
    ∃ r', (scanTree excl false p s (.dir r)).loc = .dir r' ∧
      r'.meta = r.meta ∧ r'.files = r.files ∧
      (∀ q u, s.find q = FindResult.dir u → ∃ u', r'.find q = FindResult.dir u') ∧
      (∀ q, q ≠ [] →
        (match s.find q with | FindResult.dir _ => False | _ => True) →
        r'.find q = r.find q) ∧
      (scanTree excl false p s (.dir r)).pairs = expPairsT excl p (locFind (.dir r)) s
  | excl, p, .node m fs ds, r => by
    intro hwf hcf
    simp only [FSTree.wfb, Bool.and_eq_true] at hwf
    simp only [confFree, Bool.and_eq_true] at hcf
    have hnodup : nodupB ds.names = true :=
      nodupB_append_right (fs.map Prod.fst) ds.names hwf.1
    have hfiles : ∀ k t, ds.lookupD k = some t → lookupN k r.files = none :=
      fun k t hk => (confDirs_lookup ds r k t hcf.2 hk).1
    have hconf : ∀ k t rt, ds.lookupD k = some t → r.dirs.lookupD k = some rt →
        confFree t rt = true :=
      fun k t rt hk hrt => (confDirs_lookup ds r k t hcf.2 hk).2 rt hrt
    obtain ⟨hab, r', hloc, hmeta, hfl, hDF1, hDF2, hpairs⟩ :=
      scanDirs_char excl p ds r hwf.2 hnodup hfiles hconf
    have hunf_ab : (scanTree excl false p (.node m fs ds) (.dir r)).aborted
        = (scanDirs excl false p ds (.dir r)).aborted := by
      simp [scanTree, RepLoc.isBlocked, RepLoc.isMissing]
    have hunf_loc : (scanTree excl false p (.node m fs ds) (.dir r)).loc
        = (scanDirs excl false p ds (.dir r)).loc := by
      simp [scanTree, RepLoc.isBlocked, RepLoc.isMissing]
    have hunf_pairs : (scanTree excl false p (.node m fs ds) (.dir r)).pairs
        = (scanFiles excl p (.dir r) fs).1 ++ (scanDirs excl false p ds (.dir r)).pairs := by
      simp [scanTree, RepLoc.isBlocked, RepLoc.isMissing]
    refine ⟨by rw [hunf_ab]; exact hab, r', by rw [hunf_loc]; exact hloc,
      hmeta, hfl, ?_, ?_, ?_⟩
    · intro q u hq
      cases q with
      | nil => exact ⟨r', rfl⟩
      | cons k tail =>
        rw [find_cons] at hq
        simp only [FSTree.dirs, FSTree.files] at hq
        cases hlk : ds.lookupD k with
        | some t0 =>
          rw [hlk] at hq
          exact hDF1 k t0 tail u hlk hq
        | none =>
          rw [hlk] at hq
          cases tail with
          | nil =>
            cases hfn : lookupN k fs with
            | some fd => rw [hfn] at hq; cases hq
            | none => rw [hfn] at hq; cases hq
          | cons a b => cases hq
    · intro q hqne hq
      cases q with
      | nil => exact absurd rfl hqne
      | cons k tail =>
        rw [find_cons] at hq
        simp only [FSTree.dirs, FSTree.files] at hq
        cases hlk : ds.lookupD k with
        | some t0 =>
          rw [hlk] at hq
          refine hDF2 k tail ?_
          simp only [DirList.findD, hlk]
          exact hq
        | none =>
          refine hDF2 k tail ?_
          simp [DirList.findD, hlk]
    · rw [hunf_pairs, hpairs, scanFiles_pairs excl p (.dir r) fs]
      rfl

/-- Companion of `scanTree_char` for the subdirectory entries of one
source directory, threading the parent's replica state. -/
theorem scanDirs_char : ∀ (excl : List GlobPattern) (p : List String)
    (ds : DirList) (r : FSTree),
    wfbD ds = true → nodupB ds.names = true →
    (∀ k t, ds.lookupD k = some t → lookupN k r.files = none) →
    (∀ k t rt, ds.lookupD k = some t → r.dirs.lookupD k = some rt →
      confFree t rt = true) →
    (scanDirs excl false p ds (.dir r)).aborted = false ∧
    ∃ r', (scanDirs excl false p ds (.dir r)).loc = .dir r' ∧
      r'.meta = r.meta ∧ r'.files = r.files ∧
      (∀ k t q u, ds.lookupD k = some t → t.find q = FindResult.dir u →
        ∃ u', r'.find (k :: q) = FindResult.dir u') ∧
      (∀ k tail,
        (match ds.findD (k :: tail) with | FindResult.dir _ => False | _ => True) →
        r'.find (k :: tail) = r.find (k :: tail)) ∧
      (scanDirs excl false p ds (.dir r)).pairs = expPairsD excl p (locFind (.dir r)) ds
  | excl, p, .nil, r => by
    intro _ _ _ _
    refine ⟨by simp [scanDirs], r, by simp [scanDirs], rfl, rfl, ?_, ?_,
      by simp [scanDirs, expPairsD]⟩
    · intro k t q u hk _
      simp [DirList.lookupD] at hk
    · intro k tail _
      rfl
  | excl, p, .cons n t rest, r => by
    intro hwf hnodup hfiles hconf
    simp only [wfbD, Bool.and_eq_true] at hwf
    have hnn : n ∉ rest.names ∧ nodupB rest.names = true :=
      nodupB_cons n rest.names (by simpa [DirList.names] using hnodup)
    have hrestnone : rest.lookupD n = none :=
      lookupD_eq_none_of_not_mem rest n hnn.1
    have hself : (DirList.cons n t rest).lookupD n = some t := by
      simp [DirList.lookupD]
    have hfn : lookupN n r.files = none := hfiles n t hself
    have hρ : locFind (childLoc (.dir r) n) = fun q => locFind (.dir r) (n :: q) :=
      funext fun q => locFind_childLoc (.dir r) n q
    have hpack : (scanTree excl false (p ++ [n]) t (childLoc (.dir r) n)).aborted = false ∧
        ∃ ct, (scanTree excl false (p ++ [n]) t (childLoc (.dir r) n)).loc = .dir ct ∧
          (∀ q u, t.find q = FindResult.dir u → ∃ u', ct.find q = FindResult.dir u') ∧
          (∀ q, q ≠ [] →
            (match t.find q with | FindResult.dir _ => False | _ => True) →
            ct.find q = r.find (n :: q)) ∧
          (scanTree excl false (p ++ [n]) t (childLoc (.dir r) n)).pairs
            = expPairsT excl (p ++ [n]) (fun q => locFind (.dir r) (n :: q)) t := by
      cases hrd : r.dirs.lookupD n with
      | some rt =>
        have hcl : childLoc (.dir r) n = .dir rt := by simp [childLoc, hrd]
        obtain ⟨hcab, ct, hcloc, _, _, hc1, hc2, hcp⟩ :=
          scanTree_char excl (p ++ [n]) t rt hwf.1 (hconf n t rt hself hrd)
        rw [hcl]
        refine ⟨hcab, ct, hcloc, hc1, ?_, ?_⟩
        · intro q hqne hqnd
          rw [hc2 q hqne hqnd, find_cons]
          simp [hrd]
        · have hρ' : locFind (.dir rt) = fun q => locFind (.dir r) (n :: q) := by
            rw [← hcl]
            exact hρ
          rw [hcp, hρ']
      | none =>
        have hcl : childLoc (.dir r) n = .missing := by simp [childLoc, hrd, hfn]
        obtain ⟨hmloc, hmpairs, hmab⟩ := scanTree_missing_real excl (p ++ [n]) t
        obtain ⟨hcab, ct, hcloc, _, _, hc1, hc2, hcp⟩ :=
          scanTree_char excl (p ++ [n]) t emptyDir hwf.1 (confFree_empty t)
        rw [hcl]
        refine ⟨by rw [hmab]; exact hcab, ct, by rw [hmloc]; exact hcloc, hc1, ?_, ?_⟩
        · intro q hqne hqnd
          rw [hc2 q hqne hqnd, emptyDir_find_ne q hqne, find_cons]
          cases q with
          | nil => exact absurd rfl hqne
          | cons a b => simp [hrd, hfn]
        · rw [hmpairs, hcp]
          have hcongr : expPairsT excl (p ++ [n]) (locFind (.dir emptyDir)) t
              = expPairsT excl (p ++ [n]) (locFind RepLoc.missing) t := by
            refine expPairsT_congr _ _ _ _ t ?_
            intro q hq
            simp only [locFind]
            rw [emptyDir_find_ne q hq]
          have hρ' : locFind RepLoc.missing = fun q => locFind (.dir r) (n :: q) := by
            rw [← hcl]
            exact hρ
          rw [hcongr, hρ']
    obtain ⟨hcab, ct, hcloc, hSF1c, hSF2c, hcpairs⟩ := hpack
    set r1 : FSTree := FSTree.node r.meta r.files (r.dirs.upsertD n ct) with hr1def
    have hr1 : applyChild (.dir r) n
        (scanTree excl false (p ++ [n]) t (childLoc (.dir r) n)).loc = .dir r1 := by
      rw [hcloc, hr1def]
      simp [applyChild]
    have hfind_r1_self : ∀ tail, r1.find (n :: tail) = ct.find tail := by
      intro tail
      rw [hr1def, find_cons]
      have hdirs : (FSTree.node r.meta r.files (DirList.upsertD n ct r.dirs)).dirs
          = DirList.upsertD n ct r.dirs := rfl
      rw [hdirs, lookupD_upsertD_self r.dirs n ct]
    have hfind_r1_other : ∀ k tail, k ≠ n → r1.find (k :: tail) = r.find (k :: tail) := by
      intro k tail hk
      have h := find_upsertD_ne r.meta r.files r.dirs n ct k tail hk
      rw [FSTree.eta r] at h
      rw [hr1def]
      exact h
    have hkn_rest : ∀ k t', rest.lookupD k = some t' → k ≠ n := by
      intro k t' hk he
      exact hnn.1 (he ▸ names_of_lookupD rest k t' hk)
    have hfiles' : ∀ k t', rest.lookupD k = some t' → lookupN k r1.files = none := by
      intro k t' hk
      have hkn : k ≠ n := hkn_rest k t' hk
      show lookupN k r.files = none
      exact hfiles k t' (by simp [DirList.lookupD, Ne.symm hkn, hk])
    have hconf' : ∀ k t' rt', rest.lookupD k = some t' →
        r1.dirs.lookupD k = some rt' → confFree t' rt' = true := by
      intro k t' rt' hk hrt
      have hkn : k ≠ n := hkn_rest k t' hk
      have hrt' : r.dirs.lookupD k = some rt' := by
        rw [← lookupD_upsertD_ne r.dirs n k ct hkn]
        exact hrt
      exact hconf k t' rt' (by simp [DirList.lookupD, Ne.symm hkn, hk]) hrt'
    obtain ⟨hrab, r', hrloc, hrmeta, hrfl, hDF1r, hDF2r, hrpairs⟩ :=
      scanDirs_char excl p rest r1 hwf.2 hnn.2 hfiles' hconf'
    have hunf_ab : (scanDirs excl false p (.cons n t rest) (.dir r)).aborted
        = (scanDirs excl false p rest (.dir r1)).aborted := by
      simp [scanDirs, hcab, hr1]
    have hunf_loc : (scanDirs excl false p (.cons n t rest) (.dir r)).loc
        = (scanDirs excl false p rest (.dir r1)).loc := by
      simp [scanDirs, hcab, hr1]
    have hunf_pairs : (scanDirs excl false p (.cons n t rest) (.dir r)).pairs
        = (scanTree excl false (p ++ [n]) t (childLoc (.dir r) n)).pairs
          ++ (scanDirs excl false p rest (.dir r1)).pairs := by
      simp [scanDirs, hcab, hr1]
    have hnames : expPairsD excl p (locFind (.dir r1)) rest
        = expPairsD excl p (locFind (.dir r)) rest := by
      refine expPairsD_congr_names excl p _ _ rest ?_
      intro k q hk
      obtain ⟨t0, ht0⟩ := Option.isSome_iff_exists.mp hk
      have hkn : k ≠ n := hkn_rest k t0 ht0
      show r1.find (k :: q) = r.find (k :: q)
      exact hfind_r1_other k q hkn
    refine ⟨by rw [hunf_ab]; exact hrab, r', by rw [hunf_loc]; exact hrloc,
      hrmeta, hrfl, ?_, ?_, ?_⟩
    · intro k t0 q u hk hq
      by_cases hkn : n = k
      · subst hkn
        have ht0 : t = t0 := by simpa [DirList.lookupD] using hk
        subst ht0
        have hfind1 : r'.find (n :: q) = r1.find (n :: q) := by
          refine hDF2r n q ?_
          simp [DirList.findD, hrestnone]
        rw [hfind1, hfind_r1_self q]
        exact hSF1c q u hq
      · have hk' : rest.lookupD k = some t0 := by
          simpa [DirList.lookupD, hkn] using hk
        exact hDF1r k t0 q u hk' hq
    · intro k tail hnd
      by_cases hkn : n = k
      · subst hkn
        have hndt : (match t.find tail with
            | FindResult.dir _ => False | _ => True) := by
          simpa [DirList.findD, DirList.lookupD] using hnd
        cases tail with
        | nil => simp [FSTree.find] at hndt
        | cons a b =>
          have h1 : r'.find (n :: a :: b) = r1.find (n :: a :: b) := by
            refine hDF2r n (a :: b) ?_
            simp [DirList.findD, hrestnone]
          rw [h1, hfind_r1_self (a :: b)]
          exact hSF2c (a :: b) (by simp) hndt
      · have h1 : r'.find (k :: tail) = r1.find (k :: tail) := by
          refine hDF2r k tail ?_
          cases hrk : rest.lookupD k with
          | some t0 =>
            have he : (DirList.cons n t rest).findD (k :: tail) = t0.find tail := by
              simp [DirList.findD, DirList.lookupD, hkn, hrk]
            rw [he] at hnd
            simp only [DirList.findD, hrk]
            exact hnd
          | none => simp [DirList.findD, hrk]
        rw [h1]
        exact hfind_r1_other k tail (fun he => hkn he.symm)
    · rw [hunf_pairs, hcpairs, hrpairs, hnames]
      rfl

end

/-! Shape of the pending pairs a walk produces, and conditions under
which the pending list is empty. -/

/-- Whether the classification of one source file against what the
replica resolution shows at its path yields a pending pair: yes when
the replica path does not exist, otherwise the comparator's verdict. -/
def needCopy (fd : FileData) (x : FindResult) : Bool :=
  match toStat x with
  | none => true
  | some e => differsB (.file fd) e

theorem expFiles_cons (excl : List GlobPattern) (p : List String)
    (ρ : List String → FindResult) (n : String) (fd : FileData)
    (rest : List (String × FileData)) :
    expFiles excl p ρ ((n, fd) :: rest)
      = if should_exclude n excl then expFiles excl p ρ rest
        else if needCopy fd (ρ [n]) then
          ⟨p ++ [n], p ++ [n]⟩ :: expFiles excl p ρ rest
        else expFiles excl p ρ rest := by
  by_cases hx : should_exclude n excl
  · simp [expFiles, hx]
  · cases h : toStat (ρ [n]) with
    | none => simp [expFiles, needCopy, hx, h]
    | some e =>
      by_cases hd : differsB (.file fd) e <;> simp [expFiles, needCopy, hx, h, hd]

theorem nodupB_append_left : ∀ (A B : List String), nodupB (A ++ B) = true →
    nodupB A = true
  | [], B => by intro _; rfl
  | a :: A, B => by
    intro h
    have hc := nodupB_cons a (A ++ B) (by simpa using h)
    simp only [nodupB, Bool.and_eq_true]
    refine ⟨?_, nodupB_append_left A B hc.2⟩
    have hnm : a ∉ A := fun hm => hc.1 (List.mem_append_left B hm)
    simpa using hnm

theorem lookupN_of_mem_nodup {β : Type} : ∀ (fs : List (String × β)) (n : String) (b : β),
    nodupB (fs.map Prod.fst) = true → (n, b) ∈ fs → lookupN n fs = some b
  | [], n, b => by intro _ h; cases h
  | (m, c) :: rest, n, b => by
    intro hnd hmem
    have hc := nodupB_cons m (rest.map Prod.fst) (by simpa using hnd)
    rcases List.mem_cons.mp hmem with heq | hmem'
    · obtain ⟨hm, hb⟩ := Prod.mk.injEq .. ▸ heq
      subst hm hb
      simp [lookupN]
    · have hne : ¬ m = n := by
        intro he
        subst he
        exact hc.1 (by simpa using List.mem_map_of_mem Prod.fst hmem')
      simp [lookupN, hne, lookupN_of_mem_nodup rest n b hc.2 hmem']

theorem lookupD_mem_toList : ∀ (ds : DirList) (k : String) (u : FSTree),
    ds.lookupD k = some u → (k, u) ∈ ds.toList
  | .nil, k, u => by intro h; simp [DirList.lookupD] at h
  | .cons m t rest, k, u => by
    intro h
    by_cases hm : m = k
    · subst hm
      have : t = u := by simpa [DirList.lookupD] using h
      subst this
      simp [DirList.toList]
    · have h' : rest.lookupD k = some u := by simpa [DirList.lookupD, hm] using h
      simp [DirList.toList]
      right
      exact lookupD_mem_toList rest k u h'

theorem append_singleton_inj {α : Type} : ∀ (q₁ q₂ : List α) (a b : α),
    q₁ ++ [a] = q₂ ++ [b] → q₁ = q₂ ∧ a = b := by
  intro q₁ q₂ a b h
  have hlen : q₁.length = q₂.length := by
    have := congrArg List.length h
    simp at this
    exact this
  obtain ⟨h1, h2⟩ := List.append_inj h (by simp [hlen])
  exact ⟨h1, by simpa using h2⟩

theorem find_file_parent (t : FSTree) (q : List String) (n : String) (fd : FileData)
    (h : t.find (q ++ [n]) = .file fd) : ∃ u, t.find q = .dir u := by
  rw [find_append] at h
  cases hq : t.find q with
  | dir u => exact ⟨u, rfl⟩
  | file gd => rw [hq] at h; cases h
  | missing => rw [hq] at h; cases h

theorem find_prefix_missing (t : FSTree) (q₁ q₂ : List String)
    (h : t.find q₁ = .missing) : t.find (q₁ ++ q₂) = .missing := by
  rw [find_append, h]

theorem existsInSrc_ancestor (s : FSTree) : ∀ q₁ q₂,
    existsInSrc (some s) (q₁ ++ q₂) = true → existsInSrc (some s) q₁ = true := by
  intro q₁ q₂ h
  cases hq : s.find q₁ with
  | missing =>
    rw [existsInSrc, find_prefix_missing s q₁ q₂ hq] at h
    cases h
  | file fd => simp [existsInSrc, hq]
  | dir u => simp [existsInSrc, hq]

theorem lookupN_filter_none {β : Type} (n : String) (pred : String × β → Bool) :
    ∀ fs : List (String × β), lookupN n fs = none → lookupN n (fs.filter pred) = none
  | [] => by intro _; rfl
  | (m, b) :: rest => by
    intro h
    have hmn : ¬ m = n := by
      intro he
      simp [lookupN, he] at h
    have hr : lookupN n rest = none := by simpa [lookupN, hmn] using h
    by_cases hp : pred (m, b) = true
    · simp [List.filter_cons, hp, lookupN, hmn, lookupN_filter_none n pred rest hr]
    · simp [List.filter_cons, hp, lookupN_filter_none n pred rest hr]

theorem pruneTree_missing (srcEx : List String → Bool) :
    ∀ (q : List String) (t : FSTree) (p : List String),
      t.find q = .missing → ((pruneTree false srcEx p t).1).find q = .missing := by
  intro q
  induction q with
  | nil => intro t p h; simp [FSTree.find] at h
  | cons n rest ih =>
    intro t p h
    cases t with
    | node m fs ds =>
      rw [pruneTree_node, find_cons]
      rw [find_cons] at h
      simp only [FSTree.dirs, FSTree.files] at h ⊢
      cases hd : ds.lookupD n with
      | some sub =>
        rw [hd] at h
        by_cases hs : srcEx (p ++ [n]) = true
        · rw [pruneDirs_lookupD_kept srcEx p n hs ds sub hd]
          exact ih sub (p ++ [n]) h
        · have hs' : srcEx (p ++ [n]) = false := by
            cases hx : srcEx (p ++ [n]) with
            | true => exact absurd hx hs
            | false => rfl
          rw [pruneDirs_lookupD_orphan srcEx p n hs' ds]
          cases rest with
          | nil => simp [FSTree.find] at h
          | cons a b => rfl
      | none =>
        rw [hd] at h
        rw [pruneDirs_lookupD_of_none srcEx p n ds hd]
        cases rest with
        | nil =>
          cases hln : lookupN n fs with
          | some fd => rw [hln] at h; cases h
          | none => rw [lookupN_filter_none n (fun e => srcEx (p ++ [e.1])) fs hln]
        | cons a b => rfl

/-- Under conflict-freedom, no path is a regular file in the source and
a directory in the replica. -/
theorem confFree_file_not_dir : ∀ (q : List String) (s r : FSTree), confFree s r = true →
    ∀ (fd : FileData) (u : FSTree),
      s.find q = .file fd → r.find q = .dir u → False := by
  intro q
  induction q with
  | nil => intro s r _ fd u hs _; simp [FSTree.find] at hs
  | cons k tail ih =>
    intro s r hc fd u hs hr
    cases s with
    | node m fs ds =>
      simp only [confFree, Bool.and_eq_true] at hc
      rw [find_cons] at hs hr
      simp only [FSTree.dirs, FSTree.files] at hs
      cases hsd : ds.lookupD k with
      | some u0 =>
        rw [hsd] at hs
        cases hrd : r.dirs.lookupD k with
        | some rt =>
          rw [hrd] at hr
          have hcf := (confDirs_lookup ds r k u0 hc.2 hsd).2 rt hrd
          exact ih u0 rt hcf fd u hs hr
        | none =>
          rw [hrd] at hr
          cases tail with
          | nil =>
            cases hln : lookupN k r.files with
            | some gd => rw [hln] at hr; cases hr
            | none => rw [hln] at hr; cases hr
          | cons a b => cases hr
      | none =>
        rw [hsd] at hs
        cases tail with
        | cons a b => cases hs
        | nil =>
          cases hln : lookupN k fs with
          | none => rw [hln] at hs; cases hs
          | some fd0 =>
            have hmem := lookupN_mem k fs fd0 hln
            have hnone : (r.dirs.lookupD k).isNone = true := by
              have hall := List.all_eq_true.mp hc.1 (k, fd0) hmem
              exact hall
            have hnone' : r.dirs.lookupD k = none := Option.isNone_iff_eq_none.mp hnone
            rw [hnone'] at hr
            cases hln' : lookupN k r.files with
            | some gd => rw [hln'] at hr; cases hr
            | none => rw [hln'] at hr; cases hr

/-- The comparator on a readable file and an exactly copied version of
it reports unchanged. -/
theorem differsB_copy (fd : FileData) (h : fd.readable = true) :
    differsB (.file fd) (.file ⟨fd.content, fd.mtime, true⟩) = false := by
  simp [differsB, hashB, StatEntry.size, StatEntry.mtime, h]

/-- When the comparator reports unchanged for a readable source file,
the replica file has the identical bytes. -/
theorem differsB_false_content (fd gd : FileData) (hr : fd.readable = true)
    (h : differsB (.file fd) (.file gd) = false) :
    gd.content = fd.content ∧ gd.readable = true := by
  simp only [differsB, StatEntry.size, StatEntry.mtime] at h
  by_cases h1 : fd.content.length ≠ gd.content.length
  · simp [h1] at h
  · simp only [h1, if_false] at h
    by_cases h2 : gd.mtime < fd.mtime
    · simp [h2] at h
    · simp only [h2, if_false, decide_eq_false_iff_not, not_not] at h
      rw [hashB, hashB, if_pos hr] at h
      cases hgr : gd.readable with
      | false => rw [if_neg (by simp [hgr])] at h; cases h
      | true =>
        rw [if_pos hgr] at h
        refine ⟨?_, rfl⟩
        have := Option.some.injEq .. ▸ h
        simpa [md5Digest] using h.symm

theorem expFiles_shape (excl : List GlobPattern) (p : List String)
    (ρ : List String → FindResult) :
    ∀ (fs : List (String × FileData)) (pr : SyncPair), pr ∈ expFiles excl p ρ fs →
      ∃ n fd, pr = ⟨p ++ [n], p ++ [n]⟩ ∧ (n, fd) ∈ fs ∧
        should_exclude n excl = false ∧ needCopy fd (ρ [n]) = true
  | [], pr => by intro h; simp [expFiles] at h
  | (n, fd) :: rest, pr => by
    intro h
    rw [expFiles_cons] at h
    by_cases hx : should_exclude n excl
    · rw [if_pos hx] at h
      obtain ⟨n', fd', hpr, hmem, hex, hnc⟩ := expFiles_shape excl p ρ rest pr h
      exact ⟨n', fd', hpr, List.mem_cons_of_mem _ hmem, hex, hnc⟩
    · rw [if_neg hx] at h
      by_cases hnc : needCopy fd (ρ [n]) = true
      · rw [if_pos hnc] at h
        rcases List.mem_cons.mp h with rfl | h'
        · exact ⟨n, fd, rfl, List.mem_cons_self _ _,
            Bool.eq_false_iff.mpr hx, hnc⟩
        · obtain ⟨n', fd', hpr, hmem, hex, hnc'⟩ := expFiles_shape excl p ρ rest pr h'
          exact ⟨n', fd', hpr, List.mem_cons_of_mem _ hmem, hex, hnc'⟩
      · rw [if_neg hnc] at h
        obtain ⟨n', fd', hpr, hmem, hex, hnc'⟩ := expFiles_shape excl p ρ rest pr h
        exact ⟨n', fd', hpr, List.mem_cons_of_mem _ hmem, hex, hnc'⟩

theorem expFiles_nil_of (excl : List GlobPattern) (p : List String)
    (ρ : List String → FindResult) :
    ∀ fs : List (String × FileData),
      (∀ n fd, (n, fd) ∈ fs → should_exclude n excl = false →
        needCopy fd (ρ [n]) = false) →
      expFiles excl p ρ fs = []
  | [] => by intro _; rfl
  | (n, fd) :: rest => by
    intro h
    rw [expFiles_cons]
    have hrest := expFiles_nil_of excl p ρ rest
      (fun n' fd' hm hx => h n' fd' (List.mem_cons_of_mem _ hm) hx)
    by_cases hx : should_exclude n excl
    · rw [if_pos hx, hrest]
    · rw [if_neg hx, h n fd (List.mem_cons_self _ _) (Bool.eq_false_iff.mpr hx)]
      rw [if_neg (by simp), hrest]

theorem expFiles_mem_of (excl : List GlobPattern) (p : List String)
    (ρ : List String → FindResult) :
    ∀ (fs : List (String × FileData)) (n : String) (fd : FileData),
      (n, fd) ∈ fs → should_exclude n excl = false → needCopy fd (ρ [n]) = true →
      (⟨p ++ [n], p ++ [n]⟩ : SyncPair) ∈ expFiles excl p ρ fs
  | [], n, fd => by intro h; cases h
  | (m, gd) :: rest, n, fd => by
    intro hmem hx hnc
    rw [expFiles_cons]
    rcases List.mem_cons.mp hmem with heq | hmem'
    · obtain ⟨hm, hg⟩ := Prod.mk.injEq .. ▸ heq
      subst hm hg
      rw [if_neg (by simp [hx]), if_pos hnc]
      exact List.mem_cons_self _ _
    · have hr := expFiles_mem_of excl p ρ rest n fd hmem' hx hnc
      by_cases hxm : should_exclude m excl
      · rw [if_pos hxm]; exact hr
      · rw [if_neg hxm]
        by_cases hncm : needCopy gd (ρ [m]) = true
        · rw [if_pos hncm]; exact List.mem_cons_of_mem _ hr
        · rw [if_neg hncm]; exact hr

mutual

/-- Every pending pair of a well-formed source tree's walk targets the
relative path of one non-excluded source file whose classification
against the replica resolution demanded a copy, with source and replica
paths equal. -/
theorem expPairsT_shape : ∀ (excl : List GlobPattern) (p : List String)
    (ρ : List String → FindResult) (s : FSTree) (pr : SyncPair),
    s.wfb = true → pr ∈ expPairsT excl p ρ s →
    ∃ q n fd, pr = ⟨p ++ (q ++ [n]), p ++ (q ++ [n])⟩ ∧
      s.find (q ++ [n]) = .file fd ∧ should_exclude n excl = false ∧
      needCopy fd (ρ (q ++ [n])) = true
  | excl, p, ρ, .node m fs ds, pr => by
    intro hwf h
    simp only [FSTree.wfb, Bool.and_eq_true] at hwf
    rcases List.mem_append.mp (by simpa [expPairsT] using h) with hf | hd
    · obtain ⟨n, fd, hpr, hmem, hex, hnc⟩ := expFiles_shape excl p ρ fs pr hf
      refine ⟨[], n, fd, by simpa using hpr, ?_, hex, by simpa using hnc⟩
      have hnodupf : nodupB (fs.map Prod.fst) = true :=
        nodupB_append_left (fs.map Prod.fst) ds.names hwf.1
      have hlk : lookupN n fs = some fd := lookupN_of_mem_nodup fs n fd hnodupf hmem
      have hnotd : n ∉ ds.names :=
        nodupB_disjoint (fs.map Prod.fst) ds.names n hwf.1
          (List.mem_map_of_mem Prod.fst hmem)
      have hdn : ds.lookupD n = none := lookupD_eq_none_of_not_mem ds n hnotd
      show (FSTree.node m fs ds).find (List.nil ++ [n]) = .file fd
      rw [List.nil_append, find_cons]
      simp only [FSTree.dirs, FSTree.files]
      rw [hdn, hlk]
    · obtain ⟨k, u, q, n, fd, hlk, hpr, hfind, hex, hnc⟩ :=
        expPairsD_shape excl p ρ ds pr hwf.2
          (nodupB_append_right (fs.map Prod.fst) ds.names hwf.1) hd
      refine ⟨k :: q, n, fd, by simpa using hpr, ?_, hex, by simpa using hnc⟩
      show (FSTree.node m fs ds).find ((k :: q) ++ [n]) = .file fd
      rw [List.cons_append, find_cons]
      simp only [FSTree.dirs]
      rw [hlk]
      exact hfind

/-- Companion of `expPairsT_shape` for subdirectory listings. -/
theorem expPairsD_shape : ∀ (excl : List GlobPattern) (p : List String)
    (ρ : List String → FindResult) (ds : DirList) (pr : SyncPair),
    wfbD ds = true → nodupB ds.names = true → pr ∈ expPairsD excl p ρ ds →
    ∃ k u q n fd, ds.lookupD k = some u ∧
      pr = ⟨p ++ (k :: (q ++ [n])), p ++ (k :: (q ++ [n]))⟩ ∧
      u.find (q ++ [n]) = .file fd ∧ should_exclude n excl = false ∧
      needCopy fd (ρ (k :: (q ++ [n]))) = true
  | excl, p, ρ, .nil, pr => by
    intro _ _ h
    simp [expPairsD] at h
  | excl, p, ρ, .cons k0 t0 rest, pr => by
    intro hwf hnodup h
    simp only [wfbD, Bool.and_eq_true] at hwf
    have hnn : k0 ∉ rest.names ∧ nodupB rest.names = true :=
      nodupB_cons k0 rest.names (by simpa [DirList.names] using hnodup)
    rcases List.mem_append.mp (by simpa [expPairsD] using h) with hc | hr
    · obtain ⟨q, n, fd, hpr, hfind, hex, hnc⟩ :=
        expPairsT_shape excl (p ++ [k0]) (fun q => ρ (k0 :: q)) t0 pr hwf.1 hc
      refine ⟨k0, t0, q, n, fd, by simp [DirList.lookupD], ?_, hfind, hex, hnc⟩
      rw [hpr]
      simp
    · obtain ⟨k, u, q, n, fd, hlk, hpr, hfind, hex, hnc⟩ :=
        expPairsD_shape excl p ρ rest pr hwf.2 hnn.2 hr
      have hkn : ¬ k0 = k := fun he => hnn.1 (he ▸ names_of_lookupD rest k u hlk)
      exact ⟨k, u, q, n, fd, by simp [DirList.lookupD, hkn, hlk], hpr, hfind, hex, hnc⟩

end

mutual

/-- When no non-excluded source file needs a copy against the replica
resolution, the walk of a well-formed source tree produces no pending
pair. -/
theorem expPairsT_nil_of : ∀ (excl : List GlobPattern) (p : List String)
    (ρ : List String → FindResult) (s : FSTree), s.wfb = true →
    (∀ q n fd, s.find (q ++ [n]) = .file fd → should_exclude n excl = false →
      needCopy fd (ρ (q ++ [n])) = false) →
    expPairsT excl p ρ s = []
  | excl, p, ρ, .node m fs ds => by
    intro hwf h
    simp only [FSTree.wfb, Bool.and_eq_true] at hwf
    have hnodupf : nodupB (fs.map Prod.fst) = true :=
      nodupB_append_left (fs.map Prod.fst) ds.names hwf.1
    have hfs : expFiles excl p ρ fs = [] := by
      refine expFiles_nil_of excl p ρ fs ?_
      intro n fd hmem hx
      have hlk : lookupN n fs = some fd := lookupN_of_mem_nodup fs n fd hnodupf hmem
      have hdn : ds.lookupD n = none := lookupD_eq_none_of_not_mem ds n
        (nodupB_disjoint (fs.map Prod.fst) ds.names n hwf.1
          (List.mem_map_of_mem Prod.fst hmem))
      have hfind : (FSTree.node m fs ds).find (List.nil ++ [n]) = .file fd := by
        rw [List.nil_append, find_cons]
        simp only [FSTree.dirs, FSTree.files]
        rw [hdn, hlk]
      simpa using h [] n fd hfind hx
    have hds : expPairsD excl p ρ ds = [] := by
      refine expPairsD_nil_of excl p ρ ds hwf.2
        (nodupB_append_right (fs.map Prod.fst) ds.names hwf.1) ?_
      intro k q n fd hfd hx
      cases hlk : ds.lookupD k with
      | none => rw [DirList.findD, hlk] at hfd; cases hfd
      | some u =>
        rw [DirList.findD, hlk] at hfd
        have hfind : (FSTree.node m fs ds).find ((k :: q) ++ [n]) = .file fd := by
          rw [List.cons_append, find_cons]
          simp only [FSTree.dirs]
          rw [hlk]
          exact hfd
        simpa using h (k :: q) n fd hfind hx
    simp [expPairsT, hfs, hds]

/-- Companion of `expPairsT_nil_of` for subdirectory listings. -/
theorem expPairsD_nil_of : ∀ (excl : List GlobPattern) (p : List String)
    (ρ : List String → FindResult) (ds : DirList), wfbD ds = true →
    nodupB ds.names = true →
    (∀ k q n fd, ds.findD (k :: (q ++ [n])) = .file fd →
      should_exclude n excl = false → needCopy fd (ρ (k :: (q ++ [n]))) = false) →
    expPairsD excl p ρ ds = []
  | excl, p, ρ, .nil => by intro _ _ _; rfl
  | excl, p, ρ, .cons k0 t0 rest => by
    intro hwf hnodup h
    simp only [wfbD, Bool.and_eq_true] at hwf
    have hnn : k0 ∉ rest.names ∧ nodupB rest.names = true :=
      nodupB_cons k0 rest.names (by simpa [DirList.names] using hnodup)
    have hrestnone : rest.lookupD k0 = none :=
      lookupD_eq_none_of_not_mem rest k0 hnn.1
    have hc : expPairsT excl (p ++ [k0]) (fun q => ρ (k0 :: q)) t0 = [] := by
      refine expPairsT_nil_of excl (p ++ [k0]) (fun q => ρ (k0 :: q)) t0 hwf.1 ?_
      intro q n fd hfd hx
      have : (DirList.cons k0 t0 rest).findD (k0 :: (q ++ [n])) = .file fd := by
        rw [DirList.findD]
        simp only [DirList.lookupD, if_pos rfl]
        exact hfd
      exact h k0 q n fd this hx
    have hrest : expPairsD excl p ρ rest = [] := by
      refine expPairsD_nil_of excl p ρ rest hwf.2 hnn.2 ?_
      intro k q n fd hfd hx
      by_cases hkn : k0 = k
      · subst hkn
        rw [DirList.findD, hrestnone] at hfd
        cases hfd
      · refine h k q n fd ?_ hx
        rw [DirList.findD] at hfd ⊢
        simp only [DirList.lookupD, if_neg hkn]
        exact hfd
    simp [expPairsD, hc, hrest]

end

theorem expPairsD_mem_of_entry (excl : List GlobPattern) (p : List String)
    (ρ : List String → FindResult) :
    ∀ (ds : DirList) (k : String) (u : FSTree) (pr : SyncPair),
      (k, u) ∈ ds.toList →
      pr ∈ expPairsT excl (p ++ [k]) (fun q => ρ (k :: q)) u →
      pr ∈ expPairsD excl p ρ ds
  | .nil, k, u, pr => by intro h _; simp [DirList.toList] at h
  | .cons m t rest, k, u, pr => by
    intro hmem hin
    simp only [DirList.toList, List.mem_cons] at hmem
    rcases hmem with heq | hmem'
    · obtain ⟨hm, hu⟩ := Prod.mk.injEq .. ▸ heq
      subst hm hu
      exact List.mem_append_left _ hin
    · exact List.mem_append_right _
        (expPairsD_mem_of_entry excl p ρ rest k u pr hmem' hin)

/-- Every non-excluded source file whose classification demands a copy
contributes its pending pair to the walk's output. -/
theorem expPairsT_mem_of : ∀ (q : List String) (excl : List GlobPattern)
    (p : List String) (ρ : List String → FindResult) (s : FSTree)
    (n : String) (fd : FileData),
    s.find (q ++ [n]) = .file fd → should_exclude n excl = false →
    needCopy fd (ρ (q ++ [n])) = true →
    (⟨p ++ (q ++ [n]), p ++ (q ++ [n])⟩ : SyncPair) ∈ expPairsT excl p ρ s
  | [], excl, p, ρ, .node m fs ds, n, fd => by
    intro hf hx hnc
    rw [List.nil_append, find_cons] at hf
    simp only [FSTree.dirs, FSTree.files] at hf
    cases hdn : ds.lookupD n with
    | some u => rw [hdn] at hf; cases hf
    | none =>
      rw [hdn] at hf
      cases hln : lookupN n fs with
      | none => rw [hln] at hf; cases hf
      | some fd0 =>
        rw [hln] at hf
        have hfd : fd0 = fd := by injection hf
        subst hfd
        have := expFiles_mem_of excl p ρ fs n fd0 (lookupN_mem n fs fd0 hln) hx
          (by simpa using hnc)
        simp only [expPairsT]
        exact List.mem_append_left _ (by simpa using this)
  | k :: q, excl, p, ρ, .node m fs ds, n, fd => by
    intro hf hx hnc
    rw [List.cons_append, find_cons] at hf
    simp only [FSTree.dirs] at hf
    cases hdn : ds.lookupD k with
    | none =>
      rw [hdn] at hf
      cases hq : q ++ [n] with
      | nil => simp at hq
      | cons a b => rw [hq] at hf; cases hf
    | some u =>
      rw [hdn] at hf
      have hrec := expPairsT_mem_of q excl (p ++ [k]) (fun q' => ρ (k :: q')) u n fd
        hf hx (by simpa using hnc)
      have hmem := expPairsD_mem_of_entry excl p ρ ds k u _
        (lookupD_mem_toList ds k u hdn) hrec
      simp only [expPairsT]
      refine List.mem_append_right _ ?_
      have hpath : (p ++ [k]) ++ (q ++ [n]) = p ++ ((k :: q) ++ [n]) := by simp
      rw [← hpath]
      exact hmem

mutual

/-- When every source directory already exists as a replica directory,
a real walk leaves the replica state exactly unchanged, aborts nothing,
emits only file-classification log records, and produces the expected
pending pairs. -/
theorem scanTree_nocreate : ∀ (excl : List GlobPattern) (p : List String)
    (s : FSTree) (r : FSTree),
    s.wfb = true →
    (∀ q u, s.find q = FindResult.dir u → ∃ w, r.find q = FindResult.dir w) →
    (scanTree excl false p s (.dir r)).loc = .dir r ∧
    (scanTree excl false p s (.dir r)).aborted = false ∧
    (scanTree excl false p s (.dir r)).pairs = expPairsT excl p (locFind (.dir r)) s ∧
    ∀ e ∈ (scanTree excl false p s (.dir r)).log, isScanFileEvent e = true
  | excl, p, .node m fs ds, r => by
    intro hwf hdirs
    simp only [FSTree.wfb, Bool.and_eq_true] at hwf
    have hyp : ∀ k u q v, ds.lookupD k = some u → u.find q = FindResult.dir v →
        ∃ w, r.find (k :: q) = FindResult.dir w := by
      intro k u q v hk hu
      refine hdirs (k :: q) v ?_
      rw [find_cons]
      simp only [FSTree.dirs]
      rw [hk]
      exact hu
    have hd := scanDirs_nocreate excl p ds r hwf.2
      (nodupB_append_right (fs.map Prod.fst) ds.names hwf.1) hyp
    refine ⟨?_, ?_, ?_, ?_⟩
    · simp [scanTree, RepLoc.isBlocked, RepLoc.isMissing, hd.1]
    · simp [scanTree, RepLoc.isBlocked, RepLoc.isMissing, hd.2.1]
    · simp [scanTree, RepLoc.isBlocked, RepLoc.isMissing, expPairsT, hd.2.2.1,
        scanFiles_pairs]
    · intro e he
      simp [scanTree, RepLoc.isBlocked, RepLoc.isMissing] at he
      rcases he with he | he
      · exact scanFiles_log _ _ _ _ e he
      · exact hd.2.2.2 e he

/-- Companion of `scanTree_nocreate` for subdirectory listings. -/
theorem scanDirs_nocreate : ∀ (excl : List GlobPattern) (p : List String)
    (ds : DirList) (r : FSTree),
    wfbD ds = true → nodupB ds.names = true →
    (∀ k u q v, ds.lookupD k = some u → u.find q = FindResult.dir v →
      ∃ w, r.find (k :: q) = FindResult.dir w) →
    (scanDirs excl false p ds (.dir r)).loc = .dir r ∧
    (scanDirs excl false p ds (.dir r)).aborted = false ∧
    (scanDirs excl false p ds (.dir r)).pairs = expPairsD excl p (locFind (.dir r)) ds ∧
    ∀ e ∈ (scanDirs excl false p ds (.dir r)).log, isScanFileEvent e = true
  | excl, p, .nil, r => by
    intro _ _ _
    refine ⟨by simp [scanDirs], by simp [scanDirs], by simp [scanDirs, expPairsD], ?_⟩
    intro e he
    simp [scanDirs] at he
  | excl, p, .cons k0 t0 rest, r => by
    intro hwf hnodup hdirs
    simp only [wfbD, Bool.and_eq_true] at hwf
    have hnn : k0 ∉ rest.names ∧ nodupB rest.names = true :=
      nodupB_cons k0 rest.names (by simpa [DirList.names] using hnodup)
    have hself : (DirList.cons k0 t0 rest).lookupD k0 = some t0 := by
      simp [DirList.lookupD]
    obtain ⟨w, hw⟩ := hdirs k0 t0 [] t0 hself (by simp [FSTree.find])
    have hwlk : r.dirs.lookupD k0 = some w := by
      rw [find_cons] at hw
      cases hlk : r.dirs.lookupD k0 with
      | some w' =>
        rw [hlk] at hw
        simp [FSTree.find] at hw
        rw [hw]
      | none =>
        rw [hlk] at hw
        cases hln : lookupN k0 r.files with
        | some fd => rw [hln] at hw; cases hw
        | none => rw [hln] at hw; cases hw
    have hcl : childLoc (.dir r) k0 = .dir w := by simp [childLoc, hwlk]
    have hfindw : ∀ q, r.find (k0 :: q) = w.find q := by
      intro q
      rw [find_cons, hwlk]
    have hchild := scanTree_nocreate excl (p ++ [k0]) t0 w hwf.1 (by
      intro q v hv
      obtain ⟨w', hw'⟩ := hdirs k0 t0 q v hself hv
      rw [hfindw q] at hw'
      exact ⟨w', hw'⟩)
    have happ : applyChild (.dir r) k0
        (scanTree excl false (p ++ [k0]) t0 (.dir w)).loc = .dir r := by
      rw [hchild.1]
      simp [applyChild, upsertD_lookup_self r.dirs k0 w hwlk, FSTree.eta]
    have hresthyp : ∀ k u q v, rest.lookupD k = some u →
        u.find q = FindResult.dir v → ∃ w', r.find (k :: q) = FindResult.dir w' := by
      intro k u q v hk hv
      have hkn : ¬ k0 = k := fun he => hnn.1 (he ▸ names_of_lookupD rest k u hk)
      exact hdirs k u q v (by simp [DirList.lookupD, hkn, hk]) hv
    have hrest := scanDirs_nocreate excl p rest r hwf.2 hnn.2 hresthyp
    have hcpairs : (scanTree excl false (p ++ [k0]) t0 (.dir w)).pairs
        = expPairsT excl (p ++ [k0]) (fun q => locFind (.dir r) (k0 :: q)) t0 := by
      rw [hchild.2.2.1]
      have hfn : locFind (.dir w) = fun q => locFind (.dir r) (k0 :: q) := by
        funext q
        show w.find q = r.find (k0 :: q)
        rw [hfindw q]
      rw [hfn]
    refine ⟨?_, ?_, ?_, ?_⟩
    · simp [scanDirs, hcl, hchild.2.1, happ, hrest.1]
    · simp [scanDirs, hcl, hchild.2.1, happ, hrest.2.1]
    · simp [scanDirs, expPairsD, hcl, hchild.2.1, happ, hrest.2.2.1, hcpairs]
    · intro e he
      simp [scanDirs, hcl, hchild.2.1, happ] at he
      rcases he with he | he
      · exact hchild.2.2.2 e he
      · exact hrest.2.2.2 e he

end

theorem sync_real_somesome (st t : FSTree) (excl : List GlobPattern)
    (ok : SyncPair → Bool) (r' rN : FSTree)
    (hab : (scanTree excl false [] st (.dir t)).aborted = false)
    (hloc : (scanTree excl false [] st (.dir t)).loc = .dir r')
    (hrN : (applyPairs false (some st) ok (some r')
      (scanTree excl false [] st (.dir t)).pairs).1 = some rN) :
    sync_folders (some st) (some t) false excl ok =
      ⟨some (pruneTree false (existsInSrc (some st)) [] rN).1,
       (scanTree excl false [] st (.dir t)).pairs,
       (scanTree excl false [] st (.dir t)).log
         ++ (applyPairs false (some st) ok (some r')
              (scanTree excl false [] st (.dir t)).pairs).2
         ++ (pruneTree false (existsInSrc (some st)) [] rN).2,
       false⟩ := by
  simp [sync_folders, hab, hloc, locToOpt, hrN]

/-- One real pass over a well-formed source and a conflict-free replica,
with every source file readable and no copy failing: nothing raises, and
the resulting replica holds every source directory as a directory, every
non-excluded source file as a file the comparator calls unchanged, keeps
excluded source files' replica entries as they were, holds nothing where
the source holds nothing, and contains no orphan entry. -/
theorem pass_char (excl : List GlobPattern) (ok : SyncPair → Bool) (s r0 : FSTree)
    (hwf : s.wfb = true) (hconf : confFree s r0 = true)
    (hread : ∀ q fd, s.find q = FindResult.file fd → fd.readable = true)
    (hok : ∀ pr, ok pr = true) :
    (sync_folders (some s) (some r0) false excl ok).raised = false ∧
    ∃ R1, (sync_folders (some s) (some r0) false excl ok).replica = some R1 ∧
      (∀ q u, s.find q = FindResult.dir u → ∃ w, R1.find q = FindResult.dir w) ∧
      (∀ q n fd, s.find (q ++ [n]) = FindResult.file fd →
        should_exclude n excl = false →
        ∃ gd, R1.find (q ++ [n]) = FindResult.file gd ∧
          differsB (StatEntry.file fd) (StatEntry.file gd) = false) ∧
      (∀ q n fd, s.find (q ++ [n]) = FindResult.file fd →
        should_exclude n excl = true →
        R1.find (q ++ [n]) = r0.find (q ++ [n])) ∧
      (∀ q, q ≠ [] → s.find q = FindResult.missing → R1.find q = FindResult.missing) ∧
      noOrphT (existsInSrc (some s)) [] R1 = true := by
  obtain ⟨hab, r', hloc, hmeta, hfls, hSF1, hSF2, hpairs⟩ :=
    scanTree_char excl [] s r0 hwf hconf
  set prs := (scanTree excl false [] s (.dir r0)).pairs with hprs
  have hshape : ∀ pr ∈ prs, ∃ q n fd,
      pr = ⟨q ++ [n], q ++ [n]⟩ ∧ s.find (q ++ [n]) = FindResult.file fd ∧
      should_exclude n excl = false ∧ needCopy fd (r0.find (q ++ [n])) = true := by
    intro pr hpr
    rw [hpairs] at hpr
    obtain ⟨q, n, fd, hpr', hf, hx, hnc⟩ :=
      expPairsT_shape excl [] (locFind (.dir r0)) s pr hwf hpr
    exact ⟨q, n, fd, by simpa using hpr', hf, hx, by simpa [locFind] using hnc⟩
  have hnd : ∀ pr ∈ prs, (match r'.find pr.replicaPath with
      | FindResult.dir _ => False | _ => True) := by
    intro pr hpr
    obtain ⟨q, n, fd, hpr', hf, hx, hnc⟩ := hshape pr hpr
    rw [hpr']
    show (match r'.find (q ++ [n]) with | FindResult.dir _ => False | _ => True)
    have h2 : r'.find (q ++ [n]) = r0.find (q ++ [n]) := by
      refine hSF2 (q ++ [n]) (by simp) ?_
      rw [hf]
      trivial
    rw [h2]
    cases hr0 : r0.find (q ++ [n]) with
    | dir u => exact confFree_file_not_dir (q ++ [n]) s r0 hconf fd u hf hr0
    | file gd => trivial
    | missing => trivial
  obtain ⟨rN, hrN, huntouched, hper⟩ := applyPairs_master s ok prs r' hnd
  have hres := sync_real_somesome s r0 excl ok r' rN hab hloc hrN
  refine ⟨by rw [hres], (pruneTree false (existsInSrc (some s)) [] rN).1,
    by rw [hres], ?_, ?_, ?_, ?_, pruneTree_noOrph (existsInSrc (some s)) [] rN⟩
  · intro q u hq
    obtain ⟨u', hu'⟩ := hSF1 q u hq
    have hne : ∀ pr ∈ prs, pr.replicaPath ≠ q := by
      intro pr hpr heq
      obtain ⟨q1, n1, fd1, hpr', hf1, _, _⟩ := hshape pr hpr
      rw [hpr'] at heq
      have heq' : q1 ++ [n1] = q := heq
      rw [heq'] at hf1
      rw [hq] at hf1
      cases hf1
    have hsame := huntouched q hne
    rw [hu'] at hsame
    obtain ⟨u'', hu''⟩ := sameEntry_dir hsame u' rfl
    have hsrc : existsInSrc (some s) ([] ++ q) = true := by simp [existsInSrc, hq]
    exact ⟨_, pruneTree_keeps_dir (existsInSrc (some s)) (existsInSrc_ancestor s)
      q rN [] u'' hu'' hsrc⟩
  · intro q n fd hf hx
    have hsrc : existsInSrc (some s) ([] ++ (q ++ [n])) = true := by
      simp [existsInSrc, hf]
    by_cases hneed : needCopy fd (r0.find (q ++ [n])) = true
    · have hmem : (⟨q ++ [n], q ++ [n]⟩ : SyncPair) ∈ prs := by
        rw [hpairs]
        have := expPairsT_mem_of q excl [] (locFind (.dir r0)) s n fd hf hx
          (by simpa [locFind] using hneed)
        simpa using this
      have hparent : ∃ tq, r'.find q = FindResult.dir tq := by
        obtain ⟨u, hu⟩ := find_file_parent s q n fd hf
        exact hSF1 q u hu
      have huniq : ∀ pr' ∈ prs,
          pr'.replicaPath = (⟨q ++ [n], q ++ [n]⟩ : SyncPair).replicaPath →
          pr' = ⟨q ++ [n], q ++ [n]⟩ := by
        intro pr' hpr' heq
        obtain ⟨q1, n1, fd1, hpr1, _, _, _⟩ := hshape pr' hpr'
        rw [hpr1] at heq ⊢
        have heq' : q1 ++ [n1] = q ++ [n] := heq
        rw [heq']
      obtain ⟨hfile, _⟩ := hper ⟨q ++ [n], q ++ [n]⟩ hmem q n fd rfl hf (hok _)
        (hread _ _ hf) hparent huniq
      refine ⟨⟨fd.content, fd.mtime, true⟩, ?_, differsB_copy fd (hread _ _ hf)⟩
      exact pruneTree_keeps_file (existsInSrc (some s)) (existsInSrc_ancestor s)
        (q ++ [n]) rN [] _ hfile hsrc
    · have h2 : r'.find (q ++ [n]) = r0.find (q ++ [n]) := by
        refine hSF2 (q ++ [n]) (by simp) ?_
        rw [hf]
        trivial
      cases hr0 : r0.find (q ++ [n]) with
      | missing =>
        rw [hr0] at hneed
        simp [needCopy, toStat] at hneed
      | dir w => exact (confFree_file_not_dir (q ++ [n]) s r0 hconf fd w hf hr0).elim
      | file gd =>
        rw [hr0] at hneed
        have hd : differsB (StatEntry.file fd) (StatEntry.file gd) = false := by
          simpa [needCopy, toStat] using hneed
        have hne : ∀ pr ∈ prs, pr.replicaPath ≠ q ++ [n] := by
          intro pr hpr heq
          obtain ⟨q1, n1, fd1, hpr1, hf1, hx1, hnc1⟩ := hshape pr hpr
          rw [hpr1] at heq
          have heq' : q1 ++ [n1] = q ++ [n] := heq
          rw [heq'] at hf1 hnc1
          rw [hf] at hf1
          have hfd : fd = fd1 := by injection hf1
          rw [← hfd, hr0] at hnc1
          have : differsB (StatEntry.file fd) (StatEntry.file gd) = true := by
            simpa [needCopy, toStat] using hnc1
          rw [hd] at this
          cases this
        have hsame := huntouched (q ++ [n]) hne
        rw [h2, hr0] at hsame
        have hrNf := sameEntry_file hsame gd rfl
        exact ⟨gd, pruneTree_keeps_file (existsInSrc (some s))
          (existsInSrc_ancestor s) (q ++ [n]) rN [] gd hrNf hsrc, hd⟩
  · intro q n fd hf hx
    have hsrc : existsInSrc (some s) ([] ++ (q ++ [n])) = true := by
      simp [existsInSrc, hf]
    have hne : ∀ pr ∈ prs, pr.replicaPath ≠ q ++ [n] := by
      intro pr hpr heq
      obtain ⟨q1, n1, fd1, hpr1, hf1, hx1, hnc1⟩ := hshape pr hpr
      rw [hpr1] at heq
      have heq' : q1 ++ [n1] = q ++ [n] := heq
      obtain ⟨_, hn1⟩ := append_singleton_inj q1 q n1 n heq'
      rw [hn1] at hx1
      rw [hx1] at hx
      cases hx
    have h2 : r'.find (q ++ [n]) = r0.find (q ++ [n]) := by
      refine hSF2 (q ++ [n]) (by simp) ?_
      rw [hf]
      trivial
    have hsame := huntouched (q ++ [n]) hne
    rw [h2] at hsame
    cases hr0 : r0.find (q ++ [n]) with
    | dir w => exact (confFree_file_not_dir (q ++ [n]) s r0 hconf fd w hf hr0).elim
    | file gd =>
      rw [hr0] at hsame
      have hrNf := sameEntry_file hsame gd rfl
      exact pruneTree_keeps_file (existsInSrc (some s)) (existsInSrc_ancestor s)
        (q ++ [n]) rN [] gd hrNf hsrc
    | missing =>
      rw [hr0] at hsame
      have hrNm := sameEntry_missing hsame rfl
      exact pruneTree_missing (existsInSrc (some s)) (q ++ [n]) rN [] hrNm
  · intro q hqne hq
    have hsrc : existsInSrc (some s) ([] ++ q) = false := by simp [existsInSrc, hq]
    exact pruneTree_removes (existsInSrc (some s)) q rN [] hqne hsrc

mutual

/-- Every regular file of the tree is readable, recursively. -/
def allReadB : FSTree → Bool
  | .node _ fs ds => fs.all (fun e => e.2.readable) && allReadD ds

/-- Companion of `allReadB` for subdirectory listings. -/
def allReadD : DirList → Bool
  | .nil => true
  | .cons _ t rest => allReadB t && allReadD rest

end

theorem allReadD_lookup : ∀ (ds : DirList) (k : String) (sub : FSTree),
    allReadD ds = true → ds.lookupD k = some sub → allReadB sub = true
  | .nil, k, sub => by intro _ h; simp [DirList.lookupD] at h
  | .cons m t rest, k, sub => by
    intro hall h
    simp only [allReadD, Bool.and_eq_true] at hall
    by_cases hm : m = k
    · subst hm
      have : t = sub := by simpa [DirList.lookupD] using h
      subst this
      exact hall.1
    · exact allReadD_lookup rest k sub hall.2 (by simpa [DirList.lookupD, hm] using h)

theorem allReadB_find : ∀ (q : List String) (t : FSTree), allReadB t = true →
    ∀ fd, t.find q = FindResult.file fd → fd.readable = true := by
  intro q
  induction q with
  | nil =>
    intro t _ fd h
    cases t with
    | node m fs ds => cases h
  | cons k tail ih =>
    intro t hall fd h
    cases t with
    | node m fs ds =>
      simp only [allReadB, Bool.and_eq_true] at hall
      rw [find_cons] at h
      simp only [FSTree.dirs, FSTree.files] at h
      cases hd : ds.lookupD k with
      | some sub =>
        rw [hd] at h
        exact ih sub (allReadD_lookup ds k sub hall.2 hd) fd h
      | none =>
        rw [hd] at h
        cases tail with
        | cons a b => cases h
        | nil =>
          cases hln : lookupN k fs with
          | none => rw [hln] at h; cases h
          | some fd0 =>
            rw [hln] at h
            have hrd := List.all_eq_true.mp hall.1 (k, fd0) (lookupN_mem k fs fd0 hln)
            have hfd : fd0 = fd := by injection h
            rw [← hfd]
            exact hrd

/-- C2: from a well-formed source tree and an empty replica, one
non-dry-run pass with no item-level failures (every source file
readable, every copy permitted) raises nothing and leaves the replica
mirroring the source's non-excluded content set: every source directory
exists as a replica directory, every non-excluded source file exists at
its relative path with identical bytes, excluded source files are
absent, and every path the source does not hold is absent from the
replica. -/
theorem c2_convergence (excl : List GlobPattern) (ok : SyncPair → Bool) (s : FSTree)
    (hwf : s.wfb = true) (hread : allReadB s = true) (hok : ∀ pr, ok pr = true) :
    (sync_folders (some s) (some emptyDir) false excl ok).raised = false ∧
    ∃ R, (sync_folders (some s) (some emptyDir) false excl ok).replica = some R ∧
      (∀ q u, s.find q = FindResult.dir u → ∃ w, R.find q = FindResult.dir w) ∧
      (∀ q n fd, s.find (q ++ [n]) = FindResult.file fd →
        should_exclude n excl = false →
        ∃ gd, R.find (q ++ [n]) = FindResult.file gd ∧ gd.content = fd.content) ∧
      (∀ q n fd, s.find (q ++ [n]) = FindResult.file fd →
        should_exclude n excl = true → R.find (q ++ [n]) = FindResult.missing) ∧
      (∀ q, q ≠ [] → s.find q = FindResult.missing →
        R.find q = FindResult.missing) := by
  have hread' : ∀ q fd, s.find q = FindResult.file fd → fd.readable = true :=
    fun q fd h => allReadB_find q s hread fd h
  obtain ⟨hraised, R, hrep, P4, P5, P7, P6, _⟩ :=
    pass_char excl ok s emptyDir hwf (confFree_empty s) hread' hok
  refine ⟨hraised, R, hrep, P4, ?_, ?_, P6⟩
  · intro q n fd hf hx
    obtain ⟨gd, hgd, hdiff⟩ := P5 q n fd hf hx
    obtain ⟨hc, _⟩ := differsB_false_content fd gd (hread' _ _ hf) hdiff
    exact ⟨gd, hgd, hc⟩
  · intro q n fd hf hx
    rw [P7 q n fd hf hx]
    exact emptyDir_find_ne (q ++ [n]) (by simp)

/-- Witness for C2 at a concrete input: a source with one readable file
`f` synced onto an empty replica; the pass does not raise and the file
lands in the replica with identical bytes. -/
theorem c2_convergence_witness :
    srcOneFile.wfb = true ∧ allReadB srcOneFile = true ∧
    (sync_folders (some srcOneFile) (some emptyDir) false [] okAll).raised = false ∧
    ∃ R, (sync_folders (some srcOneFile) (some emptyDir) false [] okAll).replica
        = some R ∧
      ∃ gd, R.find ["f"] = FindResult.file gd ∧ gd.content = [1, 2, 3] := by
  refine ⟨by decide, by decide, ?_, ?_⟩
  · exact (c2_convergence [] okAll srcOneFile (by decide) (by decide)
      (fun _ => rfl)).1
  · obtain ⟨_, R, hrep, _, P5, _, _⟩ :=
      c2_convergence [] okAll srcOneFile (by decide) (by decide) (fun _ => rfl)
    obtain ⟨gd, hgd, hc⟩ := P5 [] "f" ⟨[1, 2, 3], 5, true⟩ rfl (by decide)
    exact ⟨R, hrep, gd, by simpa using hgd, hc⟩

/-- C7 (amended): for a well-formed source tree and a conflict-free
replica (no path a directory in one tree and a regular file in the
other), after a successful non-dry-run pass (every source file readable,
every copy permitted), an immediately following second pass with no
change in between performs zero copy and zero remove operations: its
pending pair list is empty, the replica tree is returned exactly
unchanged, nothing raises, and no mutating line is logged. -/
theorem c7_idempotent (excl : List GlobPattern) (ok1 ok2 : SyncPair → Bool)
    (s r0 : FSTree) (hwf : s.wfb = true) (hconf : confFree s r0 = true)
    (hread : allReadB s = true) (hok : ∀ pr, ok1 pr = true) :
    ∃ R1, (sync_folders (some s) (some r0) false excl ok1).replica = some R1 ∧
      (sync_folders (some s) (some R1) false excl ok2).pairs = [] ∧
      (sync_folders (some s) (some R1) false excl ok2).replica = some R1 ∧
      (sync_folders (some s) (some R1) false excl ok2).raised = false ∧
      ∀ e ∈ (sync_folders (some s) (some R1) false excl ok2).log,
        isMutating e = false := by
  have hread' : ∀ q fd, s.find q = FindResult.file fd → fd.readable = true :=
    fun q fd h => allReadB_find q s hread fd h
  obtain ⟨_, R1, hrep, P4, P5, P7, P6, P8⟩ :=
    pass_char excl ok1 s r0 hwf hconf hread' hok
  have hscan := scanTree_nocreate excl [] s R1 hwf P4
  have hnil : expPairsT excl [] (locFind (.dir R1)) s = [] := by
    refine expPairsT_nil_of excl [] (locFind (.dir R1)) s hwf ?_
    intro q n fd hf hx
    obtain ⟨gd, hgd, hdiff⟩ := P5 q n fd hf hx
    show needCopy fd (R1.find (q ++ [n])) = false
    rw [hgd]
    simpa [needCopy, toStat] using hdiff
  have hpairs2 : (scanTree excl false [] s (.dir R1)).pairs = [] := by
    rw [hscan.2.2.1, hnil]
  have happly : (applyPairs false (some s) ok2 (some R1)
      (scanTree excl false [] s (.dir R1)).pairs).1 = some R1 := by
    rw [hpairs2]
    simp [applyPairs]
  have hres := sync_real_somesome s R1 excl ok2 R1 R1 hscan.2.1 hscan.1 happly
  have hprune : pruneTree false (existsInSrc (some s)) [] R1 = (R1, []) :=
    pruneTree_noop (existsInSrc (some s)) [] R1 P8
  refine ⟨R1, hrep, ?_, ?_, by rw [hres], ?_⟩
  · rw [hres]
    exact hpairs2
  · rw [hres]
    show some (pruneTree false (existsInSrc (some s)) [] R1).1 = some R1
    rw [hprune]
  · intro e he
    rw [hres] at he
    have he' : e ∈ (scanTree excl false [] s (.dir R1)).log := by
      simpa [hpairs2, applyPairs, hprune] using he
    exact scanFileEvent_not_mutating e (hscan.2.2.2 e he')

/-- Witness for the amended C7 at a concrete input: source with one file
`f`, empty initial replica; the second pass has no pending pair and
returns the replica of the first pass unchanged. -/
theorem c7_idempotent_witness :
    srcOneFile.wfb = true ∧ confFree srcOneFile emptyDir = true ∧
    allReadB srcOneFile = true ∧
    ∃ R1, (sync_folders (some srcOneFile) (some emptyDir) false [] okAll).replica
        = some R1 ∧
      (sync_folders (some srcOneFile) (some R1) false [] okAll).pairs = [] ∧
      (sync_folders (some srcOneFile) (some R1) false [] okAll).replica
        = some R1 := by
  refine ⟨by decide, by decide, by decide, ?_⟩
  obtain ⟨R1, hrep, hpairs, hrepl, _, _⟩ :=
    c7_idempotent [] okAll okAll srcOneFile emptyDir (by decide) (by decide)
      (by decide) (fun _ => rfl)
  exact ⟨R1, hrep, hpairs, hrepl⟩

/-- C8 (amended, opposite of the claim): in a non-dry-run pass over a
well-formed source and conflict-free replica, a replica file whose bare
name matches an exclusion pattern is NOT pruned when a file at its
relative path still exists in the source: the pruner consults only
`source_file.exists()`, so the stale replica copy is kept exactly as it
was. -/
theorem c8_excluded_kept (excl : List GlobPattern) (ok : SyncPair → Bool)
    (s r0 : FSTree) (hwf : s.wfb = true) (hconf : confFree s r0 = true)
    (hread : allReadB s = true) (hok : ∀ pr, ok pr = true)
    (q : List String) (n : String) (fd gd : FileData)
    (hs : s.find (q ++ [n]) = FindResult.file fd)
    (hx : should_exclude n excl = true)
    (hr : r0.find (q ++ [n]) = FindResult.file gd) :
    (sync_folders (some s) (some r0) false excl ok).raised = false ∧
    ∃ R, (sync_folders (some s) (some r0) false excl ok).replica = some R ∧
      R.find (q ++ [n]) = FindResult.file gd := by
  have hread' : ∀ q fd, s.find q = FindResult.file fd → fd.readable = true :=
    fun q fd h => allReadB_find q s hread fd h
  obtain ⟨hraised, R, hrep, _, _, P7, _, _⟩ :=
    pass_char excl ok s r0 hwf hconf hread' hok
  refine ⟨hraised, R, hrep, ?_⟩
  rw [P7 q n fd hs hx, hr]

/-- Witness for the amended C8 at a concrete input: the stale replica
copy of `a.tmp` survives a pass run with `a.tmp` excluded, because the
file still exists in the source. -/
theorem c8_excluded_kept_witness :
    srcTmp.wfb = true ∧ confFree srcTmp repTmp = true ∧
    should_exclude "a.tmp" [patExact] = true ∧
    ∃ R, (sync_folders (some srcTmp) (some repTmp) false [patExact] okAll).replica
        = some R ∧ R.find ["a.tmp"] = FindResult.file ⟨[8, 8], 2, true⟩ := by
  refine ⟨by decide, by decide, by decide, ?_⟩
  obtain ⟨_, R, hrep, hkeep⟩ :=
    c8_excluded_kept [patExact] okAll srcTmp repTmp (by decide) (by decide)
      (by decide) (fun _ => rfl) [] "a.tmp" ⟨[9, 9], 7, true⟩ ⟨[8, 8], 2, true⟩
      rfl (by decide) rfl
  exact ⟨R, hrep, by simpa using hkeep⟩

/-- The bare name of a relative path: its last component. -/
def bareName (q : List String) : String := q.getLastD ""

/-- Source tree for the C9 witness: a subdirectory whose bare name
`b.tmp` matches the exclusion pattern, holding the readable file
`inner`. -/
def srcTmpDir : FSTree :=
  .node ⟨0, 0⟩ [] (.cons "b.tmp" (.node ⟨1, 1⟩ [("inner", ⟨[4], 3, true⟩)] .nil) .nil)

/-- Exclusion pattern of the C9 witness, matching exactly `b.tmp`. -/
def patB : GlobPattern := fun name => name = "b.tmp"

/-- C9: exclusion patterns are matched only against bare file names,
never against directory names: a source subdirectory whose bare name
matches an exclude pattern is still present as a replica directory after
a successful pass, and its non-excluded files are still copied with
identical bytes. -/
theorem c9_dirs_not_excluded (excl : List GlobPattern) (ok : SyncPair → Bool)
    (s r0 : FSTree) (hwf : s.wfb = true) (hconf : confFree s r0 = true)
    (hread : allReadB s = true) (hok : ∀ pr, ok pr = true)
    (q : List String) (u : FSTree) (hq : s.find q = FindResult.dir u)
    (hmatch : should_exclude (bareName q) excl = true) :
    (sync_folders (some s) (some r0) false excl ok).raised = false ∧
    ∃ R, (sync_folders (some s) (some r0) false excl ok).replica = some R ∧
      (∃ w, R.find q = FindResult.dir w) ∧
      ∀ q' n fd, s.find ((q ++ q') ++ [n]) = FindResult.file fd →
        should_exclude n excl = false →
        ∃ gd, R.find ((q ++ q') ++ [n]) = FindResult.file gd ∧
          gd.content = fd.content := by
  have hread' : ∀ q fd, s.find q = FindResult.file fd → fd.readable = true :=
    fun q fd h => allReadB_find q s hread fd h
  obtain ⟨hraised, R, hrep, P4, P5, _, _, _⟩ :=
    pass_char excl ok s r0 hwf hconf hread' hok
  refine ⟨hraised, R, hrep, P4 q u hq, ?_⟩
  intro q' n fd hf hx
  obtain ⟨gd, hgd, hdiff⟩ := P5 (q ++ q') n fd hf hx
  obtain ⟨hc, _⟩ := differsB_false_content fd gd (hread' _ _ hf) hdiff
  exact ⟨gd, hgd, hc⟩

/-- Witness for C9 at a concrete input: the directory `b.tmp` matches
the exclusion pattern, yet after the pass it exists in the replica and
its file `inner` was copied with identical bytes. -/
theorem c9_dirs_not_excluded_witness :
    srcTmpDir.wfb = true ∧ should_exclude (bareName ["b.tmp"]) [patB] = true ∧
    ∃ R, (sync_folders (some srcTmpDir) (some emptyDir) false [patB] okAll).replica
        = some R ∧ (∃ w, R.find ["b.tmp"] = FindResult.dir w) ∧
      ∃ gd, R.find ["b.tmp", "inner"] = FindResult.file gd ∧ gd.content = [4] := by
  refine ⟨by decide, by decide, ?_⟩
  obtain ⟨_, R, hrep, hdir, hfiles⟩ :=
    c9_dirs_not_excluded [patB] okAll srcTmpDir emptyDir (by decide) (by decide)
      (by decide) (fun _ => rfl) ["b.tmp"] (.node ⟨1, 1⟩ [("inner", ⟨[4], 3, true⟩)] .nil)
      rfl (by decide)
  obtain ⟨gd, hgd, hc⟩ := hfiles [] "inner" ⟨[4], 3, true⟩ rfl (by decide)
  exact ⟨R, hrep, hdir, gd, by simpa using hgd, hc⟩
